import Mathlib

/-!
Verification of the crawl/classification/persistence core of the
chassidusai scraper scripts against its specification.

The development shallowly embeds the TypeScript source:

* strings are Lean `String`s (backed by `List Char`); all character-level
  operations (`includes`, `trim`, `split`, `toLowerCase`, the regular
  expressions used by the scraper) are re-implemented on `List Char`,
  with JavaScript's `\s` modelled by the common whitespace characters and
  `toLowerCase` modelled on ASCII (the strings the code compares are
  Hebrew, which `toLowerCase` leaves unchanged, or ASCII);
* the Supabase tables are association lists of row structures inside a
  `DB` value; row ids are drawn from a counter (`nextId`), standing in
  for generated ids;
* the rendered site is a finite association list from URL to an abstract
  page document (`PageDoc`): the block-level candidate elements that
  survive the clone-and-strip cleaning (each with its visible text and
  hyperlink count) and the anchor list of the original document.
  A URL absent from the list models a navigation failure (`page.goto`
  throwing), which the source catches branch-locally;
* the mutable `Set` objects threaded through the traversals are
  `Finset String` values returned functionally;
* each traversal function additionally returns a trace: the list of URLs
  (for the depth-capped crawler, URL/depth pairs) that were actually
  fetched and classified, in order, so that "visits each URL at most
  once"-style properties can be stated;
* the recursive driller's depth-first recursion over sub-link lists is
  represented by an explicit work list (the standard defunctionalisation
  of depth-first traversal): processing `(url, crumb) :: rest` performs
  exactly the body of `drillRecursive`, with the recursive calls on the
  sub-links pushed in front of `rest`, preserving the order in which the
  source fetches pages and updates the shared visited set and database.

All functions are total; termination of the surfer and the drillers is
established by well-founded recursion on the number of site URLs not yet
visited (paired with the work-list length), which is exactly the
informal argument the specification gives.
-/

namespace ChassidusAI

abbrev Url := String

/-! ## Character and string primitives (JavaScript semantics on `List Char`) -/

/-- The target-script test of the source's regexes `/[֐-׿]/`:
a character in the Hebrew Unicode block. -/
def isHebrewChar (c : Char) : Bool :=
  0x0590 ≤ c.toNat && c.toNat ≤ 0x05FF

/-- A character of the class `[א-ת]` (equivalently `[א-ת]`) used by
the arrow-artifact regex. -/
def isHebLetter (c : Char) : Bool :=
  0x05D0 ≤ c.toNat && c.toNat ≤ 0x05EA

/-- A character of the footnote-marker class `[0-9*\[\]()]`. -/
def isFootnoteChar (c : Char) : Bool :=
  c.isDigit || c = '*' || c = '[' || c = ']' || c = '(' || c = ')'

/-- JavaScript whitespace (`\s`, `String.prototype.trim`), restricted to the
characters that occur in practice: space, tab, line feed, carriage return,
vertical tab, form feed and no-break space. -/
def isSpaceChar (c : Char) : Bool :=
  c = ' ' || c = '\t' || c = '\n' || c = '\r' || c.toNat = 0x0B || c.toNat = 0x0C ||
    c.toNat = 0xA0

/-- ASCII lowering, the relevant fragment of `String.prototype.toLowerCase`
(Hebrew is unaffected by `toLowerCase`). -/
def charLower (c : Char) : Char :=
  if 'A' ≤ c && c ≤ 'Z' then Char.ofNat (c.toNat + 32) else c

/-- `toLowerCase` on a string (ASCII fragment). -/
def strLower (s : String) : String :=
  String.mk (s.toList.map charLower)

/-- Whether `pre` is a prefix of `cs` (character lists). -/
def listStartsWith : List Char → List Char → Bool
  | [], _ => true
  | _ :: _, [] => false
  | p :: ps, c :: cs => p = c && listStartsWith ps cs

/-- Whether `needle` occurs inside `hay` (character lists). -/
def listHasInfix (needle : List Char) : List Char → Bool
  | [] => needle.isEmpty
  | c :: cs => listStartsWith needle (c :: cs) || listHasInfix needle cs

/-- `hay.includes(needle)` of JavaScript. -/
def strContains (hay needle : String) : Bool :=
  listHasInfix needle.toList hay.toList

/-- `/[֐-׿]/.test(s)`: the string holds a target-script character. -/
def containsHebrew (s : String) : Bool :=
  s.toList.any isHebrewChar

/-- `/^[0-9*\[\]()]+$/.test(s)`: a non-empty string of footnote-marker
characters only. -/
def isFootnoteMarker (s : String) : Bool :=
  !s.toList.isEmpty && s.toList.all isFootnoteChar

/-- `trim` on a character list: strip whitespace from both ends. -/
def trimChars (cs : List Char) : List Char :=
  ((cs.dropWhile isSpaceChar).reverse.dropWhile isSpaceChar).reverse

/-- `s.trim()` of JavaScript. -/
def strTrim (s : String) : String :=
  String.mk (trimChars s.toList)

/-- `split(/\n/)` on a character list: the segments between line feeds
(empty segments kept, as JavaScript does). -/
def splitLinesAux (cur : List Char) : List Char → List (List Char)
  | [] => [cur.reverse]
  | c :: rest =>
    if c = '\n' then cur.reverse :: splitLinesAux [] rest
    else splitLinesAux (c :: cur) rest

/-- `s.split(/\n/)`. -/
def splitLines (cs : List Char) : List (List Char) :=
  splitLinesAux [] cs

/-- `split(/(?:\r\n|\r|\n|<br>)/)` on a character list, used by the
depth-capped crawler's segment persister. Alternatives are tried in the
regex's order. -/
def splitBreaksAux (cur : List Char) : List Char → List (List Char)
  | [] => [cur.reverse]
  | '\r' :: '\n' :: rest => cur.reverse :: splitBreaksAux [] rest
  | '\r' :: rest => cur.reverse :: splitBreaksAux [] rest
  | '\n' :: rest => cur.reverse :: splitBreaksAux [] rest
  | '<' :: 'b' :: 'r' :: '>' :: rest => cur.reverse :: splitBreaksAux [] rest
  | c :: rest => splitBreaksAux (c :: cur) rest

/-- `text.split(/(?:\r\n|\r|\n|<br>)/)`. -/
def splitBreaks (cs : List Char) : List (List Char) :=
  splitBreaksAux [] cs

/-! ## Database rows and the persistence adapter

The four Supabase tables (`authors`, `books`, `chapters`, `segments`)
with the columns the scripts read and write. Generated ids are modelled
by a `nextId` counter in `DB`. -/

structure AuthorRow where
  id : Nat
  name : String
  original_link : String
deriving DecidableEq

structure BookRow where
  id : Nat
  author_id : Nat
  title : String
  category : String
  original_link : String
deriving DecidableEq

structure ChapterRow where
  id : Nat
  book_id : Nat
  title : String
  sequence_number : Nat
  original_link : String
deriving DecidableEq

structure SegmentRow where
  chapter_id : Nat
  sequence_number : Nat
  hebrew_text : String
deriving DecidableEq

structure DB where
  authors : List AuthorRow
  books : List BookRow
  chapters : List ChapterRow
  segments : List SegmentRow
  nextId : Nat
deriving DecidableEq

/-- The empty store. -/
def DB.empty : DB :=
  ⟨[], [], [], [], 0⟩

/-- `getOrInsertAuthor`: select by `name`; if found return the existing id,
else insert `{name, original_link}` and return the new id. -/
def getOrInsertAuthor (db : DB) (name url : String) : Nat × DB :=
  match db.authors.find? (fun r => r.name == name) with
  | some r => (r.id, db)
  | none =>
    (db.nextId,
      { db with
        authors := db.authors ++ [⟨db.nextId, name, url⟩]
        nextId := db.nextId + 1 })

/-- `getOrInsertBook`: select by `original_link`; if found return the existing
id, else insert `{author_id, title, category: 'General', original_link}`. -/
def getOrInsertBook (db : DB) (authorId : Nat) (title url : String) : Nat × DB :=
  match db.books.find? (fun r => r.original_link == url) with
  | some r => (r.id, db)
  | none =>
    (db.nextId,
      { db with
        books := db.books ++ [⟨db.nextId, authorId, title, "General", url⟩]
        nextId := db.nextId + 1 })

/-- `getOrInsertChapter`: select by `original_link`; if found return the
existing id, else insert `{book_id, title, sequence_number, original_link}`. -/
def getOrInsertChapter (db : DB) (bookId : Nat) (fullPathTitle url : String)
    (sequence : Nat) : Nat × DB :=
  match db.chapters.find? (fun r => r.original_link == url) with
  | some r => (r.id, db)
  | none =>
    (db.nextId,
      { db with
        chapters := db.chapters ++ [⟨db.nextId, bookId, fullPathTitle, sequence, url⟩]
        nextId := db.nextId + 1 })

/-! ## Segment persistence of the golden-master script (`insertSegments`)

The loop body: skip a segment shorter than 2 characters; skip one with no
Hebrew character that does not match `^[0-9*\[\]()]+$`; otherwise emit a
row at the running sequence number and increment it. -/

/-- The rows `insertSegments` accumulates in `rowsToInsert`, starting the
sequence counter at `seq`. -/
def segmentRowsAux (chapterId : Nat) (seq : Nat) : List String → List SegmentRow
  | [] => []
  | seg :: rest =>
    if seg.length < 2 then segmentRowsAux chapterId seq rest
    else if !containsHebrew seg && !isFootnoteMarker seg then
      segmentRowsAux chapterId seq rest
    else
      ⟨chapterId, seq, seg⟩ :: segmentRowsAux chapterId (seq + 1) rest

/-- The batch of rows `insertSegments` builds for a chapter (`seq` starts
at 1). -/
def insertSegmentsRows (chapterId : Nat) (segments : List String) : List SegmentRow :=
  segmentRowsAux chapterId 1 segments

/-- `insertSegments` as a state transformer on the store: a plain batch
insert of the built rows (the source performs one `insert(rowsToInsert)`
with no per-row existence check). -/
def insertSegmentsDB (db : DB) (chapterId : Nat) (segments : List String) : DB :=
  { db with segments := db.segments ++ insertSegmentsRows chapterId segments }

/-- The admission predicate of the specification's segment rule, for
comparison with `segmentRowsAux`: at least 2 characters, and either a
target-script character or a pure footnote marker. -/
def keepSegment (seg : String) : Bool :=
  2 ≤ seg.length && (containsHebrew seg || isFootnoteMarker seg)

/-! ## Segment persistence of the depth-capped crawler (`insertSegments`,
text version): split the text on breaks, trim, keep segments longer than 5
characters that contain Hebrew; per row, skip the insert when a row with
the same `(chapter_id, sequence_number)` already exists, but advance the
sequence counter either way. -/

/-- The per-segment loop of the text-splitting `insertSegments`. -/
def insertSegTextAux (cid : Nat) (seq : Nat) (db : DB) : List String → DB
  | [] => db
  | seg :: rest =>
    if !containsHebrew seg then insertSegTextAux cid seq db rest
    else
      let dup := db.segments.any fun r =>
        r.chapter_id == cid && r.sequence_number == seq
      let db' :=
        if dup then db
        else { db with segments := db.segments ++ [⟨cid, seq, seg⟩] }
      insertSegTextAux cid (seq + 1) db' rest

/-- The text-splitting `insertSegments` of the depth-capped crawler. -/
def insertSegmentsText (db : DB) (chapterId : Nat) (text : String) : DB :=
  let segments :=
    ((splitBreaks text.toList).map (fun cs => String.mk (trimChars cs))).filter
      (fun s => 5 < s.length)
  insertSegTextAux chapterId 1 db segments

/-! ## The Page Classifier (`analyzePage` of the golden-master script)

A rendered page is abstracted as `PageDoc`: the candidate block elements
that `clone.querySelectorAll('div, table, article, td, span, p')` yields
after the clone-and-strip cleaning (each candidate reduced to its
`innerText` and its `querySelectorAll('a').length`), plus the anchors of
the original, uncleaned document (trimmed text paired with `href`), the
page URL and `document.title`. -/

structure Block where
  text : String
  linkCount : Nat
deriving DecidableEq

structure Anchor where
  text : String
  href : Url
deriving DecidableEq

structure PageDoc where
  url : Url
  title : String
  blocks : List Block
  anchors : List Anchor
deriving DecidableEq

inductive PageResult where
  | content (segments : List String) (nextUrl : Option Url) (pageTitle : String)
  | index (links : List Anchor)
  | empty
deriving DecidableEq

/-- `(txt.match(/[֐-׿]/g) || []).length`: the number of target-script
characters of a text. -/
def hebrewCount (s : String) : Nat :=
  (s.toList.filter isHebrewChar).length

/-- One iteration of the candidate scan: skip a block whose text is shorter
than 50 characters; compute `ratio = linkCount > 0 ? hebrewCount/linkCount
: hebrewCount`; when `hebrewCount > 100 && ratio > 50` and the count beats
the running maximum, make the block the current best. `ratio > 50` with
`linkCount > 0` is `hebrewCount > 50 * linkCount` over the rationals. -/
def selStep (st : Option Block × Nat) (b : Block) : Option Block × Nat :=
  if b.text.length < 50 then st
  else if 100 < hebrewCount b.text ∧
      (if 0 < b.linkCount then 50 * b.linkCount < hebrewCount b.text
       else 50 < hebrewCount b.text) then
    if st.2 < hebrewCount b.text then (some b, hebrewCount b.text) else st
  else st

/-- The candidate scan: `bestTextEl` after folding `selStep` over the
candidate list with `bestTextEl = null`, `maxHebrewCount = 0`. -/
def selectBestBlock (blocks : List Block) : Option Block :=
  (blocks.foldl selStep (none, 0)).1

/-- The specification's qualification formula for a content-bearing block:
`charCount > T1` and (`linkCount == 0` or `charCount / linkCount > T2`),
at the source's thresholds T1 = 100, T2 = 50. -/
def specQualifies (b : Block) : Prop :=
  100 < hebrewCount b.text ∧ (b.linkCount = 0 ∨ 50 * b.linkCount < hebrewCount b.text)

instance (b : Block) : Decidable (specQualifies b) := by
  unfold specQualifies; infer_instance

/-- The candidate scan as the specification words it, with ties resolved in
favour of the last-encountered candidate (`≤` instead of `<` against the
running maximum); written for comparison with `selectBestBlock`. -/
def selStepLastTie (st : Option Block × Nat) (b : Block) : Option Block × Nat :=
  if b.text.length < 50 then st
  else if 100 < hebrewCount b.text ∧
      (if 0 < b.linkCount then 50 * b.linkCount < hebrewCount b.text
       else 50 < hebrewCount b.text) then
    if st.2 ≤ hebrewCount b.text then (some b, hebrewCount b.text) else st
  else st

/-- Last-tie-wins selection following the specification's words. -/
def selectBestBlockLastTie (blocks : List Block) : Option Block :=
  (blocks.foldl selStepLastTie (none, 0)).1

/-- The first match of `(?:<<|>>)` under a lazy anchored prefix (`^.*?`
with `/s`): the characters after the earliest `<<` or `>>`, or `none`
when the text holds neither marker. -/
def findMarkerSplit : List Char → Option (List Char)
  | [] => none
  | [_] => none
  | c :: d :: rest =>
    if (c == '<' && d == '<') || (c == '>' && d == '>') then some rest
    else findMarkerSplit (d :: rest)

/-- The tail of the arrow-artifact regex after the marker:
`\s*([א-ת]{1,4}(-[א-ת])?)?(\s+)?`, greedily. -/
def dropArrowTail (cs : List Char) : List Char :=
  let cs1 := cs.dropWhile isSpaceChar
  let hebRun := cs1.takeWhile isHebLetter
  if hebRun.length = 0 then cs1
  else
    let cs2 := cs1.drop (min 4 hebRun.length)
    let cs3 :=
      match cs2 with
      | '-' :: d :: rest => if isHebLetter d then rest else cs2
      | _ => cs2
    cs3.dropWhile isSpaceChar

/-- `rawText.replace(/^.*?(?:<<|>>)\s*([א-ת]{1,4}(-[א-ת])?)?(\s+)?/s, '')`:
strip everything through the first arrow marker plus the optional short
Hebrew page label; a text with no marker is unchanged. -/
def stripArrowArtifact (cs : List Char) : List Char :=
  match findMarkerSplit cs with
  | none => cs
  | some tail => dropArrowTail tail

/-- The final text polish of `analyzePage`: strip the arrow artifact,
split on line feeds, trim each line, drop empty lines. -/
def polishSegments (text : String) : List String :=
  (((splitLines (stripArrowArtifact text.toList)).map
    (fun cs => String.mk (trimChars cs))).filter (fun s => 0 < s.length))

/-- The cleaned segment list of a page: the polish applied to the best
candidate block's text, or `[]` when no candidate qualified. -/
def cleanedSegmentsOf (doc : PageDoc) : List String :=
  match selectBestBlock doc.blocks with
  | some b => polishSegments b.text
  | none => []

/-- The "next" anchor test: trimmed text contains `>>` or `הבא` and
neither `<<` nor `הקודם`. -/
def isNextAnchor (a : Anchor) : Bool :=
  let t := strTrim a.text
  (strContains t ">>" || strContains t "הבא") &&
    !(strContains t "<<" || strContains t "הקודם")

/-- The pagination link of a page: the `href` of the first anchor passing
`isNextAnchor`, if any. -/
def nextUrlOf (doc : PageDoc) : Option Url :=
  (doc.anchors.find? isNextAnchor).map (·.href)

/-- The sub-link filter: same scope (`/books/`), not excluded, not the
current URL, non-empty trimmed text that is none of the navigational
phrases. -/
def subLinkKeep (currentUrl : Url) (excludeList : List Url) (l : Anchor) : Bool :=
  strContains l.href "/books/" &&
    !(excludeList.contains l.href) &&
    l.href != currentUrl &&
    0 < l.text.length &&
    !strContains l.text "דף הבית" &&
    !strContains l.text "הקודם" &&
    !strContains l.text "הבא" &&
    !strContains l.text "<<" &&
    !strContains l.text ">>"

/-- The sub-links of a page: every anchor (trimmed text, href) passing
`subLinkKeep`. -/
def subLinksOf (doc : PageDoc) (excludeList : List Url) : List Anchor :=
  (doc.anchors.map (fun a => ⟨strTrim a.text, a.href⟩)).filter
    (subLinkKeep doc.url excludeList)

/-- `analyzePage`: candidate scan, polish, next link, sub-links, then the
decision `CONTENT` / `INDEX` / `EMPTY` in that order. -/
def analyzePage (doc : PageDoc) (excludeUrls : List Url) : PageResult :=
  let cleanedSegments := cleanedSegmentsOf doc
  let nextUrl := nextUrlOf doc
  let subLinks := subLinksOf doc excludeUrls
  if 0 < cleanedSegments.length then
    PageResult.content cleanedSegments nextUrl doc.title
  else if 0 < subLinks.length then PageResult.index subLinks
  else PageResult.empty

/-! ## The rendered site

A finite map from URL to rendered page. `fetchDoc site u = none` models a
navigation failure at `u` (caught by the source's `try`/`catch`). -/

abbrev Site := List (Url × PageDoc)

/-- `page.goto(url)` followed by reading the DOM: look the URL up. -/
def fetchDoc (site : Site) (url : Url) : Option PageDoc :=
  (site.find? (fun p => p.1 == url)).map (·.2)

/-- The URLs the site can render. -/
def siteDom (site : Site) : Finset Url :=
  (site.map (·.1)).toFinset

/-! ## The Linear Surfer (`surfLinear`)

The `while (currentUrl)` loop, with the two visited sets and the store
threaded functionally. The returned triple is (store, global visited set,
trace of URLs fetched and classified, in order). The value also carries
two facts used by the driller's termination argument: the global visited
set only grows, and a URL that passed both cycle guards ends up in it. -/

/-- The front-matter test of the surfer's reset-loop guard:
`titleLower.includes('הסכמה') || titleLower.includes('introduction') ||
titleLower.includes('חלק ראשון')`. -/
def surfIsStartPage (pageTitle : String) : Bool :=
  let titleLower := strLower pageTitle
  strContains titleLower "הסכמה" || strContains titleLower "introduction" ||
    strContains titleLower "חלק ראשון"

/-- The body of `surfLinear`'s `while` loop. Per step: stop on the global
or session cycle guard; mark the URL in both sets; fetch (a failure stops
the surf); on CONTENT apply the reset-loop guard, persist the chapter and
its segments, and continue to the pagination link when present and
distinct from the current URL; on anything else stop. -/
def surfGo (site : Site) (bookId : Nat) (baseTitle : String) (currentUrl : Url)
    (sequence : Nat) (globalVisited sessionVisited : Finset Url) (db : DB) :
    {r : DB × Finset Url × List Url //
      globalVisited ⊆ r.2.1 ∧
        (currentUrl ∉ globalVisited → currentUrl ∉ sessionVisited →
          currentUrl ∈ r.2.1)} :=
  if hg : currentUrl ∈ globalVisited then
    ⟨(db, globalVisited, []), Finset.Subset.refl _, fun h1 _ => absurd hg h1⟩
  else if hs : currentUrl ∈ sessionVisited then
    ⟨(db, globalVisited, []), Finset.Subset.refl _, fun _ h2 => absurd hs h2⟩
  else
    match hf : fetchDoc site currentUrl with
    | none =>
      ⟨(db, insert currentUrl globalVisited, []),
        Finset.subset_insert _ _, fun _ _ => Finset.mem_insert_self _ _⟩
    | some doc =>
      match analyzePage doc [] with
      | PageResult.content segments nextUrl pageTitle =>
        if 5 < sequence ∧ surfIsStartPage pageTitle then
          ⟨(db, insert currentUrl globalVisited, [currentUrl]),
            Finset.subset_insert _ _, fun _ _ => Finset.mem_insert_self _ _⟩
        else
          let title := baseTitle ++ " - Part " ++ toString sequence
          let pr := getOrInsertChapter db bookId title currentUrl sequence
          let db2 := insertSegmentsDB pr.2 pr.1 segments
          match nextUrl with
          | some nu =>
            if nu = currentUrl then
              ⟨(db2, insert currentUrl globalVisited, [currentUrl]),
                Finset.subset_insert _ _, fun _ _ => Finset.mem_insert_self _ _⟩
            else
              let r := surfGo site bookId baseTitle nu (sequence + 1)
                (insert currentUrl globalVisited) (insert currentUrl sessionVisited) db2
              ⟨(r.1.1, r.1.2.1, currentUrl :: r.1.2.2),
                (Finset.subset_insert _ _).trans r.2.1,
                fun _ _ => r.2.1 (Finset.mem_insert_self _ _)⟩
          | none =>
            ⟨(db2, insert currentUrl globalVisited, [currentUrl]),
              Finset.subset_insert _ _, fun _ _ => Finset.mem_insert_self _ _⟩
      | PageResult.index _ =>
        ⟨(db, insert currentUrl globalVisited, [currentUrl]),
          Finset.subset_insert _ _, fun _ _ => Finset.mem_insert_self _ _⟩
      | PageResult.empty =>
        ⟨(db, insert currentUrl globalVisited, [currentUrl]),
          Finset.subset_insert _ _, fun _ _ => Finset.mem_insert_self _ _⟩
termination_by (siteDom site \ sessionVisited).card
decreasing_by
  have hin : currentUrl ∈ siteDom site := by
    unfold fetchDoc at hf
    cases hfind : site.find? (fun p => p.1 == currentUrl) with
    | none => rw [hfind] at hf; simp at hf
    | some pr =>
      have h1 : pr.1 = currentUrl := by simpa using List.find?_some hfind
      have h2 : pr ∈ site := List.mem_of_find?_eq_some hfind
      unfold siteDom
      rw [List.mem_toFinset]
      exact h1 ▸ List.mem_map_of_mem (·.1) h2
  apply Finset.card_lt_card
  rw [Finset.ssubset_iff_of_subset
    (Finset.sdiff_subset_sdiff (Finset.Subset.refl _) (Finset.subset_insert _ _))]
  exact ⟨currentUrl, Finset.mem_sdiff.mpr ⟨hin, hs⟩, by simp⟩

/-- `surfLinear`: run the loop from the start URL with a fresh session
set, as the source does (`const sessionVisited = new Set()`). -/
def surfLinear (site : Site) (startUrl : Url) (bookId : Nat) (baseTitle : String)
    (startSeq : Nat) (globalVisited : Finset Url) (db : DB) :
    DB × Finset Url × List Url :=
  (surfGo site bookId baseTitle startUrl startSeq globalVisited ∅ db).1

/-! ## The Recursive Driller (`drillRecursive`)

The depth-first recursion of `drillRecursive`, defunctionalised over an
explicit work list: processing `(url, crumb) :: rest` performs exactly
the body of `drillRecursive(url, …)` — skip a visited URL; a fetch
failure ends the branch without marking the URL; CONTENT hands off to the
surfer seeded with `breadcrumbPath.slice(1).join(' - ')`, sequence 1 and
the shared visited set, and does not recurse further on the branch;
INDEX marks the URL visited and recurses into each sub-link with an
extended breadcrumb (pushed in front of `rest`, preserving the source's
depth-first order); EMPTY marks the URL visited — and then continues with
the rest of the work. The third component is the trace of URLs fetched
and classified, in order (a content handoff URL appears once for the
driller's own fetch and once inside the surfer's trace). -/

def drillStack (site : Site) (bookId : Nat) (sidebarUrls : List Url)
    (work : List (Url × List String)) (visited : Finset Url) (db : DB) :
    DB × Finset Url × List Url :=
  match work with
  | [] => (db, visited, [])
  | (url, crumb) :: rest =>
    if hv : url ∈ visited then drillStack site bookId sidebarUrls rest visited db
    else
      match hf : fetchDoc site url with
      | none => drillStack site bookId sidebarUrls rest visited db
      | some doc =>
        match analyzePage doc sidebarUrls with
        | PageResult.content _ _ _ =>
          let r := surfGo site bookId (String.intercalate " - " (crumb.drop 1))
            url 1 visited ∅ db
          let k := drillStack site bookId sidebarUrls rest r.1.2.1 r.1.1
          (k.1, k.2.1, url :: (r.1.2.2 ++ k.2.2))
        | PageResult.index links =>
          let children := links.map (fun l => (l.href, crumb ++ [l.text]))
          let k := drillStack site bookId sidebarUrls (children ++ rest)
            (insert url visited) db
          (k.1, k.2.1, url :: k.2.2)
        | PageResult.empty =>
          let k := drillStack site bookId sidebarUrls rest (insert url visited) db
          (k.1, k.2.1, url :: k.2.2)
termination_by ((siteDom site \ visited).card, work.length)
decreasing_by
  · exact Prod.Lex.right _ (Nat.lt_succ_self _)
  · exact Prod.Lex.right _ (Nat.lt_succ_self _)
  · apply Prod.Lex.left
    have hin : url ∈ siteDom site := by
      unfold fetchDoc at hf
      cases hfind : site.find? (fun p => p.1 == url) with
      | none => rw [hfind] at hf; simp at hf
      | some pr =>
        have h1 : pr.1 = url := by simpa using List.find?_some hfind
        have h2 : pr ∈ site := List.mem_of_find?_eq_some hfind
        unfold siteDom
        rw [List.mem_toFinset]
        exact h1 ▸ List.mem_map_of_mem (·.1) h2
    have hins : insert url visited ⊆
        (surfGo site bookId (String.intercalate " - " (crumb.drop 1))
          url 1 visited ∅ db).1.2.1 :=
      Finset.insert_subset
        ((surfGo site bookId (String.intercalate " - " (crumb.drop 1))
          url 1 visited ∅ db).2.2 hv (Finset.not_mem_empty url))
        (surfGo site bookId (String.intercalate " - " (crumb.drop 1))
          url 1 visited ∅ db).2.1
    calc (siteDom site \ _).card
        ≤ (siteDom site \ insert url visited).card :=
          Finset.card_le_card
            (Finset.sdiff_subset_sdiff (Finset.Subset.refl _) hins)
      _ < (siteDom site \ visited).card := by
          apply Finset.card_lt_card
          rw [Finset.ssubset_iff_of_subset
            (Finset.sdiff_subset_sdiff (Finset.Subset.refl _) (Finset.subset_insert _ _))]
          exact ⟨url, Finset.mem_sdiff.mpr ⟨hin, hv⟩, by simp⟩
  · apply Prod.Lex.left
    have hin : url ∈ siteDom site := by
      unfold fetchDoc at hf
      cases hfind : site.find? (fun p => p.1 == url) with
      | none => rw [hfind] at hf; simp at hf
      | some pr =>
        have h1 : pr.1 = url := by simpa using List.find?_some hfind
        have h2 : pr ∈ site := List.mem_of_find?_eq_some hfind
        unfold siteDom
        rw [List.mem_toFinset]
        exact h1 ▸ List.mem_map_of_mem (·.1) h2
    apply Finset.card_lt_card
    rw [Finset.ssubset_iff_of_subset
      (Finset.sdiff_subset_sdiff (Finset.Subset.refl _) (Finset.subset_insert _ _))]
    exact ⟨url, Finset.mem_sdiff.mpr ⟨hin, hv⟩, by simp⟩
  · apply Prod.Lex.left
    have hin : url ∈ siteDom site := by
      unfold fetchDoc at hf
      cases hfind : site.find? (fun p => p.1 == url) with
      | none => rw [hfind] at hf; simp at hf
      | some pr =>
        have h1 : pr.1 = url := by simpa using List.find?_some hfind
        have h2 : pr ∈ site := List.mem_of_find?_eq_some hfind
        unfold siteDom
        rw [List.mem_toFinset]
        exact h1 ▸ List.mem_map_of_mem (·.1) h2
    apply Finset.card_lt_card
    rw [Finset.ssubset_iff_of_subset
      (Finset.sdiff_subset_sdiff (Finset.Subset.refl _) (Finset.subset_insert _ _))]
    exact ⟨url, Finset.mem_sdiff.mpr ⟨hin, hv⟩, by simp⟩

/-- `drillRecursive` seeded at one node, as the orchestrator invokes it. -/
def drillRecursive (site : Site) (bookId : Nat) (sidebarUrls : List Url)
    (url : Url) (breadcrumbPath : List String) (visited : Finset Url) (db : DB) :
    DB × Finset Url × List Url :=
  drillStack site bookId sidebarUrls [(url, breadcrumbPath)] visited db

/-! ## The depth-capped crawler (`crawlRecursive` of the loop-fixed script)

The claims about this traversal concern only its control structure (the
visited-set check, the mark, the depth cap, termination), so its page
analyzer is abstracted into the site itself: `Site1` maps a URL directly
to the analysis verdict its `analyzePage` would return (`fetch1 … = none`
models a navigation failure). The body mirrors the source: skip a visited
URL; mark it visited; skip when `depth > 10`; on CONTENT persist a
chapter (sequence `depth * 100`) and its segments via the text-splitting
`insertSegments`; on INDEX recurse into the sub-links not yet visited,
at `depth + 1`; on EMPTY do nothing more. As with the driller, the
recursion is defunctionalised over a work list whose items carry the
depth counter, and the trace records the `(url, depth)` pairs fetched
and classified, in order. -/

inductive PageAnalysis1 where
  | content (text : String)
  | index (links : List Anchor)
  | empty
deriving DecidableEq

abbrev Site1 := List (Url × PageAnalysis1)

/-- Fetch and analyze a URL of a `Site1`. -/
def fetch1 (site : Site1) (url : Url) : Option PageAnalysis1 :=
  (site.find? (fun p => p.1 == url)).map (·.2)

/-- The URLs a `Site1` can render. -/
def siteDom1 (site : Site1) : Finset Url :=
  (site.map (·.1)).toFinset

def crawlStack (site : Site1) (bookId : Nat)
    (work : List (Url × List String × Nat)) (visited : Finset Url) (db : DB) :
    DB × Finset Url × List (Url × Nat) :=
  match work with
  | [] => (db, visited, [])
  | (url, crumb, depth) :: rest =>
    if hv : url ∈ visited then crawlStack site bookId rest visited db
    else
      if 10 < depth then crawlStack site bookId rest (insert url visited) db
      else
        match hf : fetch1 site url with
        | none => crawlStack site bookId rest (insert url visited) db
        | some (PageAnalysis1.content text) =>
          let title := String.intercalate " - " (crumb.drop 1)
          let pr := getOrInsertChapter db bookId title url (depth * 100)
          let db2 := insertSegmentsText pr.2 pr.1 text
          let k := crawlStack site bookId rest (insert url visited) db2
          (k.1, k.2.1, (url, depth) :: k.2.2)
        | some (PageAnalysis1.index links) =>
          let uniqueLinks := links.filter fun l => !decide (l.href ∈ insert url visited)
          let children := uniqueLinks.map fun l => (l.href, crumb ++ [l.text], depth + 1)
          let k := crawlStack site bookId (children ++ rest) (insert url visited) db
          (k.1, k.2.1, (url, depth) :: k.2.2)
        | some PageAnalysis1.empty =>
          let k := crawlStack site bookId rest (insert url visited) db
          (k.1, k.2.1, (url, depth) :: k.2.2)
termination_by ((siteDom1 site \ visited).card, work.length)
decreasing_by
  · exact Prod.Lex.right _ (Nat.lt_succ_self _)
  · by_cases hin : url ∈ siteDom1 site
    · apply Prod.Lex.left
      apply Finset.card_lt_card
      rw [Finset.ssubset_iff_of_subset
        (Finset.sdiff_subset_sdiff (Finset.Subset.refl _) (Finset.subset_insert _ _))]
      exact ⟨url, Finset.mem_sdiff.mpr ⟨hin, hv⟩, by simp⟩
    · have heq : siteDom1 site \ insert url visited = siteDom1 site \ visited := by
        ext x
        simp only [Finset.mem_sdiff, Finset.mem_insert]
        constructor
        · rintro ⟨hx, hni⟩
          exact ⟨hx, fun h => hni (Or.inr h)⟩
        · rintro ⟨hx, hni⟩
          refine ⟨hx, ?_⟩
          rintro (rfl | h)
          · exact hin hx
          · exact hni h
      rw [heq]
      exact Prod.Lex.right _ (Nat.lt_succ_self _)
  · by_cases hin : url ∈ siteDom1 site
    · apply Prod.Lex.left
      apply Finset.card_lt_card
      rw [Finset.ssubset_iff_of_subset
        (Finset.sdiff_subset_sdiff (Finset.Subset.refl _) (Finset.subset_insert _ _))]
      exact ⟨url, Finset.mem_sdiff.mpr ⟨hin, hv⟩, by simp⟩
    · have heq : siteDom1 site \ insert url visited = siteDom1 site \ visited := by
        ext x
        simp only [Finset.mem_sdiff, Finset.mem_insert]
        constructor
        · rintro ⟨hx, hni⟩
          exact ⟨hx, fun h => hni (Or.inr h)⟩
        · rintro ⟨hx, hni⟩
          refine ⟨hx, ?_⟩
          rintro (rfl | h)
          · exact hin hx
          · exact hni h
      rw [heq]
      exact Prod.Lex.right _ (Nat.lt_succ_self _)
  · apply Prod.Lex.left
    have hin : url ∈ siteDom1 site := by
      unfold fetch1 at hf
      cases hfind : site.find? (fun p => p.1 == url) with
      | none => rw [hfind] at hf; simp at hf
      | some pr =>
        have h1 : pr.1 = url := by simpa using List.find?_some hfind
        have h2 : pr ∈ site := List.mem_of_find?_eq_some hfind
        unfold siteDom1
        rw [List.mem_toFinset]
        exact h1 ▸ List.mem_map_of_mem (·.1) h2
    apply Finset.card_lt_card
    rw [Finset.ssubset_iff_of_subset
      (Finset.sdiff_subset_sdiff (Finset.Subset.refl _) (Finset.subset_insert _ _))]
    exact ⟨url, Finset.mem_sdiff.mpr ⟨hin, hv⟩, by simp⟩
  · apply Prod.Lex.left
    have hin : url ∈ siteDom1 site := by
      unfold fetch1 at hf
      cases hfind : site.find? (fun p => p.1 == url) with
      | none => rw [hfind] at hf; simp at hf
      | some pr =>
        have h1 : pr.1 = url := by simpa using List.find?_some hfind
        have h2 : pr ∈ site := List.mem_of_find?_eq_some hfind
        unfold siteDom1
        rw [List.mem_toFinset]
        exact h1 ▸ List.mem_map_of_mem (·.1) h2
    apply Finset.card_lt_card
    rw [Finset.ssubset_iff_of_subset
      (Finset.sdiff_subset_sdiff (Finset.Subset.refl _) (Finset.subset_insert _ _))]
    exact ⟨url, Finset.mem_sdiff.mpr ⟨hin, hv⟩, by simp⟩
  · apply Prod.Lex.left
    have hin : url ∈ siteDom1 site := by
      unfold fetch1 at hf
      cases hfind : site.find? (fun p => p.1 == url) with
      | none => rw [hfind] at hf; simp at hf
      | some pr =>
        have h1 : pr.1 = url := by simpa using List.find?_some hfind
        have h2 : pr ∈ site := List.mem_of_find?_eq_some hfind
        unfold siteDom1
        rw [List.mem_toFinset]
        exact h1 ▸ List.mem_map_of_mem (·.1) h2
    apply Finset.card_lt_card
    rw [Finset.ssubset_iff_of_subset
      (Finset.sdiff_subset_sdiff (Finset.Subset.refl _) (Finset.subset_insert _ _))]
    exact ⟨url, Finset.mem_sdiff.mpr ⟨hin, hv⟩, by simp⟩

/-- `crawlRecursive` seeded at one node. -/
def crawlRecursive (site : Site1) (bookId : Nat) (url : Url)
    (breadcrumbPath : List String) (visited : Finset Url) (depth : Nat) (db : DB) :
    DB × Finset Url × List (Url × Nat) :=
  crawlStack site bookId [(url, breadcrumbPath, depth)] visited db

/-! ## The orchestrator's persistence calls as a sequence of operations

The orchestrator reaches the store only through the three get-or-insert
adapters; a crawl against an unchanged source issues the same sequence of
calls (the same keys in the same order), so persistence idempotence is
stated over an arbitrary operation sequence replayed twice. -/

inductive CrawlOp where
  | opAuthor (name url : String)
  | opBook (authorId : Nat) (title url : String)
  | opChapter (bookId : Nat) (title url : String) (seq : Nat)
deriving DecidableEq

/-- Apply one get-or-insert call to the store. -/
def applyOp (db : DB) : CrawlOp → DB
  | CrawlOp.opAuthor n u => (getOrInsertAuthor db n u).2
  | CrawlOp.opBook a t u => (getOrInsertBook db a t u).2
  | CrawlOp.opChapter b t u s => (getOrInsertChapter db b t u s).2

/-- Apply a whole crawl's worth of get-or-insert calls. -/
def applyOps (db : DB) (ops : List CrawlOp) : DB :=
  ops.foldl applyOp db

/-- The row an operation's unique key already names exists in the store. -/
def opKeyPresent (db : DB) : CrawlOp → Prop
  | CrawlOp.opAuthor n _ => ∃ r ∈ db.authors, r.name = n
  | CrawlOp.opBook _ _ u => ∃ r ∈ db.books, r.original_link = u
  | CrawlOp.opChapter _ _ u _ => ∃ r ∈ db.chapters, r.original_link = u

/-- No two Author rows share a name, no two Book rows share a canonical
URL, no two Chapter rows share a canonical URL. -/
def NoDupKeys (db : DB) : Prop :=
  (db.authors.map (·.name)).Nodup ∧ (db.books.map (·.original_link)).Nodup ∧
    (db.chapters.map (·.original_link)).Nodup

/-! ## Concrete fixtures for witnesses and counterexamples -/

/-- 101 repetitions of א: a text over the content threshold T1 = 100. -/
def hebTextA : String :=
  String.mk (List.replicate 101 'א')

/-- 101 repetitions of ב: same target-script count as `hebTextA`,
different text. -/
def hebTextB : String :=
  String.mk (List.replicate 101 'ב')

/-- A linkless content block over both thresholds. -/
def blockA : Block :=
  ⟨hebTextA, 0⟩

/-- A second qualifying block with the same character count. -/
def blockB : Block :=
  ⟨hebTextB, 0⟩

/-- A one-block content page titled `t`, with no anchors. -/
def contentDoc : PageDoc :=
  ⟨"a", "t", [blockA], []⟩

/-- A one-block content page titled `introduction` (front matter). -/
def introDoc : PageDoc :=
  ⟨"a", "introduction", [blockA], []⟩

/-- A one-page site whose only page is content. -/
def siteOnePage : Site :=
  [("a", contentDoc)]

/-- A one-page site whose only page is front-matter content. -/
def siteIntroPage : Site :=
  [("a", introDoc)]

/-- A store holding one author row, for the lookup-path witness. -/
def dbOneAuthor : DB :=
  ⟨[⟨5, "A", "u"⟩], [], [], [], 6⟩

/-- A cyclic one-page site for the depth-capped crawler: the only page is
an index whose sole sub-link points back to itself. -/
def site1Loop : Site1 :=
  [("a", PageAnalysis1.index [⟨"t", "a"⟩])]

/-! # Theorems

## Segment persistence of the golden-master script -/

/-- The texts the segment persister keeps are exactly the input segments
passing the admission rule, in order. -/
theorem segmentRowsAux_texts (cid : Nat) (segs : List String) : ∀ (seq : Nat),
    (segmentRowsAux cid seq segs).map (·.hebrew_text) = segs.filter keepSegment := by
  induction segs with
  | nil => intro seq; rfl
  | cons seg rest ih =>
    intro seq
    unfold segmentRowsAux
    rw [List.filter_cons]
    by_cases h1 : seg.length < 2
    · have hk : keepSegment seg = false := by
        unfold keepSegment
        have h2 : ¬(2 ≤ seg.length) := by omega
        simp [h2]
      rw [if_pos h1, ih seq, hk]
      simp
    · rw [if_neg h1]
      by_cases h2 : (containsHebrew seg || isFootnoteMarker seg) = true
      · have hk : keepSegment seg = true := by
          unfold keepSegment
          have h3 : 2 ≤ seg.length := by omega
          simp [h3, h2]
        have hcond : ¬((!containsHebrew seg && !isFootnoteMarker seg) = true) := by
          simp only [Bool.and_eq_true, Bool.not_eq_true'] at *
          rcases Bool.or_eq_true_iff.mp h2 with h | h
          · intro hc; rw [h] at hc; exact absurd hc.1 (by simp)
          · intro hc; rw [h] at hc; exact absurd hc.2 (by simp)
        rw [if_neg hcond, hk]
        simp only [List.map_cons, ih (seq + 1), if_true]
      · have hk : keepSegment seg = false := by
          unfold keepSegment
          simp only [Bool.or_eq_true, not_or, Bool.not_eq_true] at h2
          simp [h2.1, h2.2]
        have hcond : (!containsHebrew seg && !isFootnoteMarker seg) = true := by
          simp only [Bool.or_eq_true, not_or, Bool.not_eq_true] at h2
          simp [h2.1, h2.2]
        rw [if_pos hcond, ih seq, hk]
        simp

/-- The sequence numbers the segment persister assigns are consecutive
from the starting counter: dropped segments do not consume a number. -/
theorem segmentRowsAux_seqs (cid : Nat) (segs : List String) : ∀ (seq : Nat),
    (segmentRowsAux cid seq segs).map (·.sequence_number) =
      List.range' seq (segmentRowsAux cid seq segs).length := by
  induction segs with
  | nil => intro seq; rfl
  | cons seg rest ih =>
    intro seq
    unfold segmentRowsAux
    by_cases h1 : seg.length < 2
    · rw [if_pos h1]; exact ih seq
    · rw [if_neg h1]
      by_cases h2 : (!containsHebrew seg && !isFootnoteMarker seg) = true
      · rw [if_pos h2]; exact ih seq
      · rw [if_neg h2]
        simp only [List.map_cons, List.length_cons, List.range'_succ]
        rw [ih (seq + 1)]

/-- C1 (amended). For every call to the segment persister: a segment is
kept exactly when it is at least 2 characters long and either contains a
target-script (Hebrew) character or matches the pure footnote-marker
pattern `^[0-9*\[\]()]+$` — so `"12"` is kept, while `"*"`, being shorter
than 2 characters, is dropped, as are whitespace-only and punctuation-only
segments. -/
theorem insertSegments_admission (cid : Nat) (segs : List String) :
    (insertSegmentsRows cid segs).map (·.hebrew_text) = segs.filter keepSegment ∧
      (∀ seg : String, keepSegment seg =
        (decide (2 ≤ seg.length) && (containsHebrew seg || isFootnoteMarker seg))) ∧
      keepSegment "12" = true ∧ keepSegment "*" = false ∧
      keepSegment "   " = false ∧ keepSegment ".," = false ∧
      keepSegment "שלום עולם" = true :=
  ⟨segmentRowsAux_texts cid segs 1, fun _ => rfl, by decide, by decide, by decide,
    by decide, by decide⟩

/-- C1, counterexample to the claim as stated: the claim (with the
specification) asserts the segment `"*"` is kept, but the persister's
length guard drops every segment shorter than 2 characters, `"*"`
included: the built row batch for `["*"]` is empty, while `"12"` survives
alone from `["*", "12"]`. -/
theorem insertSegments_star_dropped :
    insertSegmentsRows 1 ["*"] = [] ∧
      (insertSegmentsRows 1 ["*", "12"]).map (·.hebrew_text) = ["12"] := by
  constructor <;> decide

/-- C10. The kept segments of one persister call are numbered
consecutively `1, 2, …, k` in input order, where `k` is the number of
admitted segments — dropped segments do not consume a sequence number,
so the numbers do not reflect the positions of the original split
lines. -/
theorem insertSegments_seq_contiguous (cid : Nat) (segs : List String) :
    (insertSegmentsRows cid segs).map (·.sequence_number) =
      List.range' 1 (insertSegmentsRows cid segs).length ∧
      (insertSegmentsRows cid segs).length = (segs.filter keepSegment).length := by
  refine ⟨segmentRowsAux_seqs cid segs 1, ?_⟩
  have h := segmentRowsAux_texts cid segs 1
  have h2 := congrArg List.length h
  simpa using h2

/-- C6. Segment persistence is a plain batch insert: the store update is
an append of the built rows with no per-row existence check, so replaying
the same call leaves every built row in the table at least twice
(duplicate `(chapter_id, sequence_number)` rows). -/
theorem insertSegments_not_idempotent (db : DB) (cid : Nat) (segs : List String)
    (r : SegmentRow) (hr : r ∈ insertSegmentsRows cid segs) :
    insertSegmentsDB db cid segs =
      { db with segments := db.segments ++ insertSegmentsRows cid segs } ∧
      2 ≤ ((insertSegmentsDB (insertSegmentsDB db cid segs) cid segs).segments.count r) := by
    refine ⟨rfl, ?_⟩
    show 2 ≤ ((db.segments ++ insertSegmentsRows cid segs)
      ++ insertSegmentsRows cid segs).count r
    rw [List.count_append, List.count_append]
    have hpos : 0 < (insertSegmentsRows cid segs).count r := List.count_pos_iff.mpr hr
    omega

/-- C6, witness: a store that already holds the chapter's one admitted
segment row receives it again on the replay. -/
theorem insertSegments_not_idempotent_witness :
    (⟨1, 1, "שלום עולם"⟩ : SegmentRow) ∈ insertSegmentsRows 1 ["שלום עולם"] ∧
      2 ≤ ((insertSegmentsDB (insertSegmentsDB DB.empty 1 ["שלום עולם"]) 1
        ["שלום עולם"]).segments.count ⟨1, 1, "שלום עולם"⟩) :=
  ⟨by decide,
    (insertSegments_not_idempotent DB.empty 1 ["שלום עולם"] ⟨1, 1, "שלום עולם"⟩
      (by decide)).2⟩

/-! ## The Page Classifier's candidate selection (C4) and decision (C7) -/

/-- A text has at least as many characters as target-script characters. -/
theorem hebrewCount_le_length (s : String) : hebrewCount s ≤ s.length :=
  List.length_filter_le isHebrewChar s.toList

/-- One scan step, rephrased through the specification's qualification
formula: the 50-character pre-filter is subsumed by `charCount > 100`,
and the `linkCount = 0` arm of the ratio test by the same bound. -/
theorem selStep_spec (st : Option Block × Nat) (b : Block) :
    selStep st b =
      if specQualifies b then
        if st.2 < hebrewCount b.text then (some b, hebrewCount b.text) else st
      else st := by
  have hh : hebrewCount b.text ≤ b.text.length := hebrewCount_le_length b.text
  have hiff : (100 < hebrewCount b.text ∧
      (if 0 < b.linkCount then 50 * b.linkCount < hebrewCount b.text
       else 50 < hebrewCount b.text)) ↔ specQualifies b := by
    unfold specQualifies
    constructor
    · rintro ⟨ha, hb⟩
      refine ⟨ha, ?_⟩
      by_cases hl : 0 < b.linkCount
      · rw [if_pos hl] at hb
        exact Or.inr hb
      · exact Or.inl (by omega)
    · rintro ⟨ha, hb⟩
      refine ⟨ha, ?_⟩
      by_cases hl : 0 < b.linkCount
      · rw [if_pos hl]
        rcases hb with h0 | h0
        · omega
        · exact h0
      · rw [if_neg hl]
        omega
  unfold selStep
  by_cases h1 : b.text.length < 50
  · rw [if_pos h1]
    have hnq : ¬specQualifies b := fun hq => absurd hq.1 (by omega)
    rw [if_neg hnq]
  · rw [if_neg h1]
    by_cases h2 : specQualifies b
    · rw [if_pos (hiff.mpr h2), if_pos h2]
    · rw [if_neg (fun hc => h2 (hiff.mp hc)), if_neg h2]

/-- The scan's fold invariant: starting from a state whose best (if any)
is a qualifying block of the processed prefix with the maximal count,
strictly beating every earlier qualifying block, the fold maintains
exactly that, with ties going to the earlier block. -/
theorem selFold_inv (blocks : List Block) : ∀ (st : Option Block × Nat) (done : List Block),
    (st.1 = none → st.2 = 0 ∧ ∀ c ∈ done, ¬specQualifies c) →
    (∀ b0, st.1 = some b0 → specQualifies b0 ∧ st.2 = hebrewCount b0.text ∧
      (∀ c ∈ done, specQualifies c → hebrewCount c.text ≤ hebrewCount b0.text) ∧
      ∃ pre post, done = pre ++ b0 :: post ∧
        ∀ c ∈ pre, specQualifies c → hebrewCount c.text < hebrewCount b0.text) →
    ((blocks.foldl selStep st).1 = none →
      ∀ c ∈ done ++ blocks, ¬specQualifies c) ∧
    (∀ b0, (blocks.foldl selStep st).1 = some b0 → specQualifies b0 ∧
      (∀ c ∈ done ++ blocks, specQualifies c → hebrewCount c.text ≤ hebrewCount b0.text) ∧
      ∃ pre post, done ++ blocks = pre ++ b0 :: post ∧
        ∀ c ∈ pre, specQualifies c → hebrewCount c.text < hebrewCount b0.text) := by
  induction blocks with
  | nil =>
    intro st done hnone hsome
    constructor
    · intro h c hc
      exact (hnone h).2 c (by simpa using hc)
    · intro b0 h
      obtain ⟨hq, hmax2, hmax, pre, post, hdec, hpre⟩ := hsome b0 h
      exact ⟨hq, fun c hc => hmax c (by simpa using hc),
        pre, post ++ [], by simpa using hdec, hpre⟩
  | cons b rest ih =>
    intro st done hnone hsome
    have hstep := selStep_spec st b
    have happ : done ++ b :: rest = (done ++ [b]) ++ rest := by simp
    rw [List.foldl_cons, happ, hstep]
    by_cases hq : specQualifies b
    · rw [if_pos hq]
      by_cases hlt : st.2 < hebrewCount b.text
      · rw [if_pos hlt]
        refine ih (some b, hebrewCount b.text) (done ++ [b]) ?_ ?_
        · intro h
          cases h
        · intro b0 h
          cases h
          refine ⟨hq, rfl, ?_, done, [], by simp, ?_⟩
          · intro c hc hcq
            rcases List.mem_append.mp hc with hc | hc
            · cases hst : st.1 with
              | none => exact absurd hcq ((hnone hst).2 c hc)
              | some bold =>
                obtain ⟨_, h2, hmax, _⟩ := hsome bold hst
                have := hmax c hc hcq
                omega
            · simp at hc
              subst hc
              exact Nat.le_refl _
          · intro c hc hcq
            cases hst : st.1 with
            | none => exact absurd hcq ((hnone hst).2 c hc)
            | some bold =>
              obtain ⟨_, h2, hmax, _⟩ := hsome bold hst
              have := hmax c hc hcq
              omega
      · rw [if_neg hlt]
        cases hst : st.1 with
        | none =>
          exfalso
          obtain ⟨h0, _⟩ := hnone hst
          obtain ⟨h100, _⟩ := hq
          omega
        | some bold =>
          obtain ⟨hqold, h2, hmax, pre, post, hdec, hpre⟩ := hsome bold hst
          refine ih st (done ++ [b]) ?_ ?_
          · intro h
            rw [hst] at h
            cases h
          · intro b0 h
            rw [hst] at h
            cases h
            refine ⟨hqold, h2, ?_, pre, post ++ [b], by simp [hdec], hpre⟩
            intro c hc hcq
            rcases List.mem_append.mp hc with hc | hc
            · exact hmax c hc hcq
            · simp at hc
              subst hc
              omega
    · rw [if_neg hq]
      refine ih st (done ++ [b]) ?_ ?_
      · intro h
        obtain ⟨h0, hfail⟩ := hnone h
        refine ⟨h0, ?_⟩
        intro c hc
        rcases List.mem_append.mp hc with hc | hc
        · exact hfail c hc
        · simp at hc
          subst hc
          exact hq
      · intro b0 h
        obtain ⟨hq0, h2, hmax, pre, post, hdec, hpre⟩ := hsome b0 h
        refine ⟨hq0, h2, ?_, pre, post ++ [b], by simp [hdec], hpre⟩
        intro c hc hcq
        rcases List.mem_append.mp hc with hc | hc
        · exact hmax c hc hcq
        · simp at hc
          subst hc
          exact absurd hcq hq

/-- C4 (amended). A block qualifies as content-bearing exactly when its
target-script character count exceeds 100 and either it has no hyperlinks
or its count-to-link ratio exceeds 50 (`specQualifies`); among qualifying
candidates the one with maximum count is selected — but a tie is resolved
in favour of the FIRST-encountered candidate in document order (the scan
updates only on a strictly larger count), not the last-encountered. -/
theorem analyzePage_candidate_selection (blocks : List Block) :
    (selectBestBlock blocks = none ↔ ∀ b ∈ blocks, ¬specQualifies b) ∧
    ∀ b, selectBestBlock blocks = some b → specQualifies b ∧
      (∀ c ∈ blocks, specQualifies c → hebrewCount c.text ≤ hebrewCount b.text) ∧
      ∃ pre post, blocks = pre ++ b :: post ∧
        ∀ c ∈ pre, specQualifies c → hebrewCount c.text < hebrewCount b.text := by
  have hinv := selFold_inv blocks (none, 0) []
    (fun _ => ⟨rfl, by simp⟩) (fun b0 h => by cases h)
  simp only [List.nil_append] at hinv
  unfold selectBestBlock
  refine ⟨⟨fun h => hinv.1 h, fun hall => ?_⟩, hinv.2⟩
  cases hres : (blocks.foldl selStep (none, 0)).1 with
  | none => rfl
  | some b0 =>
    obtain ⟨hq, _, pre, post, hdec, _⟩ := hinv.2 b0 hres
    exact absurd hq (hall b0 (hdec ▸ List.mem_append_right pre (List.mem_cons_self b0 post)))

/-- C4, witness: on a two-block page whose only qualifying block is the
second, the scan selects it and reports its maximality. -/
theorem analyzePage_candidate_selection_witness :
    specQualifies blockA ∧
      (∀ c ∈ [Block.mk "x" 3, blockA], specQualifies c →
        hebrewCount c.text ≤ hebrewCount blockA.text) ∧
      ∃ pre post, [Block.mk "x" 3, blockA] = pre ++ blockA :: post ∧
        ∀ c ∈ pre, specQualifies c → hebrewCount c.text < hebrewCount blockA.text :=
  (analyzePage_candidate_selection [Block.mk "x" 3, blockA]).2 blockA (by decide)

/-- C4, counterexample to the claim as stated: two distinct qualifying
blocks with equal target-script counts; the source's scan keeps the
first (`maxHebrewCount` is beaten only strictly), while the
specification's last-encountered tie-break would keep the second. -/
theorem analyzePage_tie_goes_first :
    specQualifies blockA ∧ specQualifies blockB ∧
      hebrewCount blockA.text = hebrewCount blockB.text ∧ blockA ≠ blockB ∧
      selectBestBlock [blockA, blockB] = some blockA ∧
      selectBestBlockLastTie [blockA, blockB] = some blockB := by
  refine ⟨by decide, by decide, by decide, by decide, by decide, by decide⟩

/-- C7. The classifier's verdict follows the exact priority CONTENT (non-
empty cleaned segment list), else INDEX (non-empty sub-link list), else
EMPTY; a page with no qualifying candidate block yields an empty cleaned
segment list and resolves to INDEX or EMPTY, never an error (the function
is total). -/
theorem analyzePage_decision (doc : PageDoc) (excl : List Url) :
    (cleanedSegmentsOf doc ≠ [] →
      analyzePage doc excl =
        PageResult.content (cleanedSegmentsOf doc) (nextUrlOf doc) doc.title) ∧
    (cleanedSegmentsOf doc = [] → subLinksOf doc excl ≠ [] →
      analyzePage doc excl = PageResult.index (subLinksOf doc excl)) ∧
    (cleanedSegmentsOf doc = [] → subLinksOf doc excl = [] →
      analyzePage doc excl = PageResult.empty) ∧
    (selectBestBlock doc.blocks = none → cleanedSegmentsOf doc = [] ∧
      (analyzePage doc excl = PageResult.index (subLinksOf doc excl) ∨
        analyzePage doc excl = PageResult.empty)) := by
  have hone : ∀ l : List String, l ≠ [] → 0 < l.length := by
    intro l h; cases l with
    | nil => exact absurd rfl h
    | cons a t => simp
  have hanchor : ∀ l : List Anchor, l ≠ [] → 0 < l.length := by
    intro l h; cases l with
    | nil => exact absurd rfl h
    | cons a t => simp
  refine ⟨?_, ?_, ?_, ?_⟩
  · intro h
    unfold analyzePage
    rw [if_pos (hone _ h)]
  · intro h1 h2
    unfold analyzePage
    rw [if_neg (by simp [h1]), if_pos (hanchor _ h2)]
  · intro h1 h2
    unfold analyzePage
    rw [if_neg (by simp [h1]), if_neg (by simp [h2])]
  · intro hbest
    have hseg : cleanedSegmentsOf doc = [] := by
      unfold cleanedSegmentsOf
      rw [hbest]
    refine ⟨hseg, ?_⟩
    by_cases h2 : subLinksOf doc excl = []
    · right
      unfold analyzePage
      rw [if_neg (by simp [hseg]), if_neg (by simp [h2])]
    · left
      unfold analyzePage
      rw [if_neg (by simp [hseg]), if_pos (hanchor _ h2)]

/-- C7, witness: a page with one over-threshold block classifies CONTENT
with its polished segments; an anchorless, blockless page is EMPTY. -/
theorem analyzePage_decision_witness :
    analyzePage contentDoc [] =
      PageResult.content (cleanedSegmentsOf contentDoc) (nextUrlOf contentDoc) "t" ∧
      analyzePage (PageDoc.mk "a" "t" [] []) [] = PageResult.empty :=
  ⟨(analyzePage_decision contentDoc []).1 (by decide),
    (analyzePage_decision (PageDoc.mk "a" "t" [] []) []).2.2.1 (by decide) (by decide)⟩

/-! ## The Persistence Adapter's get-or-create discipline (C5) -/

/-- `getOrInsertAuthor` on a present key: the store is unchanged and the
returned id is an existing row's. -/
theorem getOrInsertAuthor_found (db : DB) (n u : String)
    (h : ∃ r ∈ db.authors, r.name = n) :
    (getOrInsertAuthor db n u).2 = db ∧
      ∃ r ∈ db.authors, r.name = n ∧ (getOrInsertAuthor db n u).1 = r.id := by
  unfold getOrInsertAuthor
  cases hf : db.authors.find? (fun r => r.name == n) with
  | none =>
    exfalso
    obtain ⟨r, hr, hn⟩ := h
    have := List.find?_eq_none.mp hf r hr
    simp [hn] at this
  | some r =>
    have h1 : r.name = n := by simpa using List.find?_some hf
    have h2 : r ∈ db.authors := List.mem_of_find?_eq_some hf
    exact ⟨rfl, r, h2, h1, rfl⟩

/-- `getOrInsertBook` on a present key. -/
theorem getOrInsertBook_found (db : DB) (a : Nat) (t u : String)
    (h : ∃ r ∈ db.books, r.original_link = u) :
    (getOrInsertBook db a t u).2 = db ∧
      ∃ r ∈ db.books, r.original_link = u ∧ (getOrInsertBook db a t u).1 = r.id := by
  unfold getOrInsertBook
  cases hf : db.books.find? (fun r => r.original_link == u) with
  | none =>
    exfalso
    obtain ⟨r, hr, hn⟩ := h
    have := List.find?_eq_none.mp hf r hr
    simp [hn] at this
  | some r =>
    have h1 : r.original_link = u := by simpa using List.find?_some hf
    have h2 : r ∈ db.books := List.mem_of_find?_eq_some hf
    exact ⟨rfl, r, h2, h1, rfl⟩

/-- `getOrInsertChapter` on a present key. -/
theorem getOrInsertChapter_found (db : DB) (bk : Nat) (t u : String) (s : Nat)
    (h : ∃ r ∈ db.chapters, r.original_link = u) :
    (getOrInsertChapter db bk t u s).2 = db ∧
      ∃ r ∈ db.chapters, r.original_link = u ∧
        (getOrInsertChapter db bk t u s).1 = r.id := by
  unfold getOrInsertChapter
  cases hf : db.chapters.find? (fun r => r.original_link == u) with
  | none =>
    exfalso
    obtain ⟨r, hr, hn⟩ := h
    have := List.find?_eq_none.mp hf r hr
    simp [hn] at this
  | some r =>
    have h1 : r.original_link = u := by simpa using List.find?_some hf
    have h2 : r ∈ db.chapters := List.mem_of_find?_eq_some hf
    exact ⟨rfl, r, h2, h1, rfl⟩

/-- `getOrInsertAuthor` on an absent key appends exactly one row. -/
theorem getOrInsertAuthor_missing (db : DB) (n u : String)
    (h : ∀ r ∈ db.authors, r.name ≠ n) :
    (getOrInsertAuthor db n u).2.authors = db.authors ++ [⟨db.nextId, n, u⟩] := by
  unfold getOrInsertAuthor
  cases hf : db.authors.find? (fun r => r.name == n) with
  | none => rfl
  | some r =>
    exfalso
    have h1 : r.name = n := by simpa using List.find?_some hf
    exact h r (List.mem_of_find?_eq_some hf) h1

/-- `getOrInsertBook` on an absent key appends exactly one row. -/
theorem getOrInsertBook_missing (db : DB) (a : Nat) (t u : String)
    (h : ∀ r ∈ db.books, r.original_link ≠ u) :
    (getOrInsertBook db a t u).2.books = db.books ++ [⟨db.nextId, a, t, "General", u⟩] := by
  unfold getOrInsertBook
  cases hf : db.books.find? (fun r => r.original_link == u) with
  | none => rfl
  | some r =>
    exfalso
    have h1 : r.original_link = u := by simpa using List.find?_some hf
    exact h r (List.mem_of_find?_eq_some hf) h1

/-- `getOrInsertChapter` on an absent key appends exactly one row. -/
theorem getOrInsertChapter_missing (db : DB) (bk : Nat) (t u : String) (s : Nat)
    (h : ∀ r ∈ db.chapters, r.original_link ≠ u) :
    (getOrInsertChapter db bk t u s).2.chapters =
      db.chapters ++ [⟨db.nextId, bk, t, s, u⟩] := by
  unfold getOrInsertChapter
  cases hf : db.chapters.find? (fun r => r.original_link == u) with
  | none => rfl
  | some r =>
    exfalso
    have h1 : r.original_link = u := by simpa using List.find?_some hf
    exact h r (List.mem_of_find?_eq_some hf) h1

/-- Each table of `applyOp` is either unchanged or extended by one row. -/
theorem applyOp_tables (db : DB) (op : CrawlOp) :
    ((applyOp db op).authors = db.authors ∨
      ∃ row, (applyOp db op).authors = db.authors ++ [row]) ∧
    ((applyOp db op).books = db.books ∨
      ∃ row, (applyOp db op).books = db.books ++ [row]) ∧
    ((applyOp db op).chapters = db.chapters ∨
      ∃ row, (applyOp db op).chapters = db.chapters ++ [row]) := by
  cases op with
  | opAuthor n u =>
    simp only [applyOp]
    unfold getOrInsertAuthor
    cases db.authors.find? (fun r => r.name == n) with
    | none => exact ⟨Or.inr ⟨_, rfl⟩, Or.inl rfl, Or.inl rfl⟩
    | some r => exact ⟨Or.inl rfl, Or.inl rfl, Or.inl rfl⟩
  | opBook a t u =>
    simp only [applyOp]
    unfold getOrInsertBook
    cases db.books.find? (fun r => r.original_link == u) with
    | none => exact ⟨Or.inl rfl, Or.inr ⟨_, rfl⟩, Or.inl rfl⟩
    | some r => exact ⟨Or.inl rfl, Or.inl rfl, Or.inl rfl⟩
  | opChapter bk t u s =>
    simp only [applyOp]
    unfold getOrInsertChapter
    cases db.chapters.find? (fun r => r.original_link == u) with
    | none => exact ⟨Or.inl rfl, Or.inl rfl, Or.inr ⟨_, rfl⟩⟩
    | some r => exact ⟨Or.inl rfl, Or.inl rfl, Or.inl rfl⟩

/-- Key presence is preserved by any later operation. -/
theorem opKeyPresent_mono (db : DB) (op op' : CrawlOp)
    (h : opKeyPresent db op') : opKeyPresent (applyOp db op) op' := by
  obtain ⟨ha, hb, hc⟩ := applyOp_tables db op
  cases op' with
  | opAuthor n u =>
    obtain ⟨r, hr, hn⟩ := h
    rcases ha with he | ⟨row, he⟩ <;>
      exact ⟨r, he ▸ (by first | exact hr | exact List.mem_append_left _ hr), hn⟩
  | opBook a t u =>
    obtain ⟨r, hr, hn⟩ := h
    rcases hb with he | ⟨row, he⟩ <;>
      exact ⟨r, he ▸ (by first | exact hr | exact List.mem_append_left _ hr), hn⟩
  | opChapter bk t u s =>
    obtain ⟨r, hr, hn⟩ := h
    rcases hc with he | ⟨row, he⟩ <;>
      exact ⟨r, he ▸ (by first | exact hr | exact List.mem_append_left _ hr), hn⟩

/-- After an operation runs, its own key is present. -/
theorem opKeyPresent_self (db : DB) (op : CrawlOp) :
    opKeyPresent (applyOp db op) op := by
  cases op with
  | opAuthor n u =>
    show ∃ r ∈ (applyOp db (CrawlOp.opAuthor n u)).authors, r.name = n
    simp only [applyOp]
    unfold getOrInsertAuthor
    cases hf : db.authors.find? (fun r => r.name == n) with
    | none =>
      exact ⟨⟨db.nextId, n, u⟩,
        List.mem_append_right _ (List.mem_singleton.mpr rfl), rfl⟩
    | some r =>
      exact ⟨r, List.mem_of_find?_eq_some hf, by simpa using List.find?_some hf⟩
  | opBook a t u =>
    show ∃ r ∈ (applyOp db (CrawlOp.opBook a t u)).books, r.original_link = u
    simp only [applyOp]
    unfold getOrInsertBook
    cases hf : db.books.find? (fun r => r.original_link == u) with
    | none =>
      exact ⟨⟨db.nextId, a, t, "General", u⟩,
        List.mem_append_right _ (List.mem_singleton.mpr rfl), rfl⟩
    | some r =>
      exact ⟨r, List.mem_of_find?_eq_some hf, by simpa using List.find?_some hf⟩
  | opChapter bk t u s =>
    show ∃ r ∈ (applyOp db (CrawlOp.opChapter bk t u s)).chapters, r.original_link = u
    simp only [applyOp]
    unfold getOrInsertChapter
    cases hf : db.chapters.find? (fun r => r.original_link == u) with
    | none =>
      exact ⟨⟨db.nextId, bk, t, s, u⟩,
        List.mem_append_right _ (List.mem_singleton.mpr rfl), rfl⟩
    | some r =>
      exact ⟨r, List.mem_of_find?_eq_some hf, by simpa using List.find?_some hf⟩

/-- An operation whose key is present is a no-op on the store. -/
theorem applyOp_id_of_present (db : DB) (op : CrawlOp)
    (h : opKeyPresent db op) : applyOp db op = db := by
  cases op with
  | opAuthor n u => exact (getOrInsertAuthor_found db n u h).1
  | opBook a t u => exact (getOrInsertBook_found db a t u h).1
  | opChapter bk t u s => exact (getOrInsertChapter_found db bk t u s h).1

/-- Key presence is preserved by a whole operation sequence. -/
theorem opKeyPresent_applyOps (ops : List CrawlOp) : ∀ (db : DB) (op' : CrawlOp),
    opKeyPresent db op' → opKeyPresent (applyOps db ops) op' := by
  induction ops with
  | nil => exact fun db op' h => h
  | cons o rest ih =>
    intro db op' h
    exact ih (applyOp db o) op' (opKeyPresent_mono db o op' h)

/-- After a sequence runs, every key of the sequence is present. -/
theorem applyOps_keys_present (ops : List CrawlOp) : ∀ (db : DB),
    ∀ op ∈ ops, opKeyPresent (applyOps db ops) op := by
  induction ops with
  | nil => intro db op h; cases h
  | cons o rest ih =>
    intro db op h
    rcases List.mem_cons.mp h with rfl | h
    · exact opKeyPresent_applyOps rest (applyOp db op) op (opKeyPresent_self db op)
    · exact ih (applyOp db o) op h

/-- A sequence whose keys are all present is a no-op on the store. -/
theorem applyOps_id_of_present (ops : List CrawlOp) : ∀ (db : DB),
    (∀ op ∈ ops, opKeyPresent db op) → applyOps db ops = db := by
  induction ops with
  | nil => intro db _; rfl
  | cons o rest ih =>
    intro db h
    have h1 : applyOp db o = db := applyOp_id_of_present db o (h o (List.mem_cons_self o rest))
    show applyOps (applyOp db o) rest = db
    rw [h1]
    exact ih db (fun op hop => h op (List.mem_cons_of_mem o hop))

/-- One operation preserves key uniqueness of all three tables. -/
theorem applyOp_nodup (db : DB) (op : CrawlOp)
    (h : NoDupKeys db) : NoDupKeys (applyOp db op) := by
  obtain ⟨h1, h2, h3⟩ := h
  cases op with
  | opAuthor n u =>
    simp only [applyOp]
    unfold getOrInsertAuthor
    cases hf : db.authors.find? (fun r => r.name == n) with
    | some r => exact ⟨h1, h2, h3⟩
    | none =>
      refine ⟨?_, h2, h3⟩
      have habs : ∀ x ∈ db.authors, x.name ≠ n := by
        intro r hr
        have := List.find?_eq_none.mp hf r hr
        simpa using this
      simpa [List.nodup_append] using ⟨h1, habs⟩
  | opBook a t u =>
    simp only [applyOp]
    unfold getOrInsertBook
    cases hf : db.books.find? (fun r => r.original_link == u) with
    | some r => exact ⟨h1, h2, h3⟩
    | none =>
      refine ⟨h1, ?_, h3⟩
      have habs : ∀ x ∈ db.books, x.original_link ≠ u := by
        intro r hr
        have := List.find?_eq_none.mp hf r hr
        simpa using this
      simpa [List.nodup_append] using ⟨h2, habs⟩
  | opChapter bk t u s =>
    simp only [applyOp]
    unfold getOrInsertChapter
    cases hf : db.chapters.find? (fun r => r.original_link == u) with
    | some r => exact ⟨h1, h2, h3⟩
    | none =>
      refine ⟨h1, h2, ?_⟩
      have habs : ∀ x ∈ db.chapters, x.original_link ≠ u := by
        intro r hr
        have := List.find?_eq_none.mp hf r hr
        simpa using this
      simpa [List.nodup_append] using ⟨h3, habs⟩

/-- A whole sequence preserves key uniqueness. -/
theorem applyOps_nodup (ops : List CrawlOp) : ∀ (db : DB),
    NoDupKeys db → NoDupKeys (applyOps db ops) := by
  induction ops with
  | nil => exact fun db h => h
  | cons o rest ih => exact fun db h => ih (applyOp db o) (applyOp_nodup db o h)

/-- C5. Every Author/Book/Chapter persistence call looks its entity up by
its unique key (name for Author, canonical URL for Book and Chapter)
first: when found it returns the existing row's id and leaves the store
unchanged, and it inserts exactly one row otherwise; consequently
replaying a whole crawl's operation sequence against an unchanged source
changes nothing and produces no duplicate Author, Book or Chapter
rows. -/
theorem persistence_get_or_create :
    (∀ (db : DB) (n u : String), (∃ r ∈ db.authors, r.name = n) →
      (getOrInsertAuthor db n u).2 = db ∧
        ∃ r ∈ db.authors, r.name = n ∧ (getOrInsertAuthor db n u).1 = r.id) ∧
    (∀ (db : DB) (a : Nat) (t u : String), (∃ r ∈ db.books, r.original_link = u) →
      (getOrInsertBook db a t u).2 = db ∧
        ∃ r ∈ db.books, r.original_link = u ∧ (getOrInsertBook db a t u).1 = r.id) ∧
    (∀ (db : DB) (bk : Nat) (t u : String) (s : Nat),
      (∃ r ∈ db.chapters, r.original_link = u) →
      (getOrInsertChapter db bk t u s).2 = db ∧
        ∃ r ∈ db.chapters, r.original_link = u ∧
          (getOrInsertChapter db bk t u s).1 = r.id) ∧
    (∀ (db : DB) (n u : String), (∀ r ∈ db.authors, r.name ≠ n) →
      (getOrInsertAuthor db n u).2.authors = db.authors ++ [⟨db.nextId, n, u⟩]) ∧
    (∀ (db : DB) (ops : List CrawlOp), NoDupKeys db →
      NoDupKeys (applyOps db ops) ∧ applyOps (applyOps db ops) ops = applyOps db ops) :=
  ⟨getOrInsertAuthor_found, getOrInsertBook_found, getOrInsertChapter_found,
    getOrInsertAuthor_missing,
    fun db ops h =>
      ⟨applyOps_nodup ops db h,
        applyOps_id_of_present ops (applyOps db ops) (applyOps_keys_present ops db)⟩⟩

/-- C5, witness: looking the author `A` up in a store that already holds
it returns the stored id 5 and leaves the store unchanged, and replaying
a one-author crawl against the resulting store keeps the author table a
single row. -/
theorem persistence_get_or_create_witness :
    ((getOrInsertAuthor dbOneAuthor "A" "u2").2 = dbOneAuthor ∧
      ∃ r ∈ dbOneAuthor.authors, r.name = "A" ∧
        (getOrInsertAuthor dbOneAuthor "A" "u2").1 = r.id) ∧
      (NoDupKeys (applyOps DB.empty [CrawlOp.opAuthor "A" "u"]) ∧
        applyOps (applyOps DB.empty [CrawlOp.opAuthor "A" "u"])
          [CrawlOp.opAuthor "A" "u"] = applyOps DB.empty [CrawlOp.opAuthor "A" "u"]) :=
  ⟨persistence_get_or_create.1 dbOneAuthor "A" "u2" ⟨⟨5, "A", "u"⟩, by decide, rfl⟩,
    persistence_get_or_create.2.2.2.2 DB.empty [CrawlOp.opAuthor "A" "u"]
      ⟨List.nodup_nil, List.nodup_nil, List.nodup_nil⟩⟩

/-! ## The Linear Surfer's step behaviour (C3, C9) -/

/-- A surf step at a URL in the global or session set stops at once:
store and global set unchanged, nothing fetched. -/
theorem surfGo_stop (site : Site) (bookId : Nat) (baseTitle : String) (u : Url)
    (seq : Nat) (g s : Finset Url) (db : DB) (h : u ∈ g ∨ u ∈ s) :
    (surfGo site bookId baseTitle u seq g s db).1 = (db, g, []) := by
  by_cases hg : u ∈ g
  · rw [surfGo, dif_pos hg]
  · rcases h with h | hs
    · exact absurd h hg
    · rw [surfGo, dif_neg hg, dif_pos hs]

/-- A surf step whose fetch fails stops: the URL is marked in the global
set (the marking precedes the navigation) but nothing is classified. -/
theorem surfGo_fetch_fail (site : Site) (bookId : Nat) (baseTitle : String) (u : Url)
    (seq : Nat) (g s : Finset Url) (db : DB) (hg : u ∉ g) (hs : u ∉ s)
    (hf : fetchDoc site u = none) :
    (surfGo site bookId baseTitle u seq g s db).1 = (db, insert u g, []) := by
  rw [surfGo, dif_neg hg, dif_neg hs]
  split
  · rfl
  · rename_i doc heq
    rw [hf] at heq
    cases heq

/-- A surf step landing on a non-CONTENT page stops after classifying it. -/
theorem surfGo_not_content (site : Site) (bookId : Nat) (baseTitle : String) (u : Url)
    (seq : Nat) (g s : Finset Url) (db : DB) (doc : PageDoc) (hg : u ∉ g) (hs : u ∉ s)
    (hf : fetchDoc site u = some doc)
    (ha : (∃ links, analyzePage doc [] = PageResult.index links) ∨
      analyzePage doc [] = PageResult.empty) :
    (surfGo site bookId baseTitle u seq g s db).1 = (db, insert u g, [u]) := by
  rw [surfGo, dif_neg hg, dif_neg hs]
  split
  · rename_i heq
    rw [hf] at heq
    cases heq
  · rename_i doc' heq
    rw [hf] at heq
    injection heq with heq
    subst heq
    rcases ha with ⟨links, ha⟩ | ha <;> rw [ha]

/-- A surf step landing on a CONTENT page whose reset-loop guard fires
(sequence over 5, front-matter title) stops before any persistence. -/
theorem surfGo_content_guard (site : Site) (bookId : Nat) (baseTitle : String) (u : Url)
    (seq : Nat) (g s : Finset Url) (db : DB) (doc : PageDoc) (segs : List String)
    (nu : Option Url) (pt : String) (hg : u ∉ g) (hs : u ∉ s)
    (hf : fetchDoc site u = some doc)
    (ha : analyzePage doc [] = PageResult.content segs nu pt)
    (hguard : 5 < seq ∧ surfIsStartPage pt = true) :
    (surfGo site bookId baseTitle u seq g s db).1 = (db, insert u g, [u]) := by
  rw [surfGo, dif_neg hg, dif_neg hs]
  split
  · rename_i heq
    rw [hf] at heq
    cases heq
  · rename_i doc' heq
    rw [hf] at heq
    injection heq with heq
    subst heq
    rw [ha]
    simp only [if_pos hguard]

/-- A surf step on a CONTENT page with no pagination link: the chapter
`baseTitle - Part seq` and its segments are persisted, then the surf
stops (natural end of book). -/
theorem surfGo_content_none (site : Site) (bookId : Nat) (baseTitle : String) (u : Url)
    (seq : Nat) (g s : Finset Url) (db : DB) (doc : PageDoc) (segs : List String)
    (pt : String) (hg : u ∉ g) (hs : u ∉ s) (hf : fetchDoc site u = some doc)
    (ha : analyzePage doc [] = PageResult.content segs none pt)
    (hguard : ¬(5 < seq ∧ surfIsStartPage pt = true)) :
    (surfGo site bookId baseTitle u seq g s db).1 =
      (insertSegmentsDB
        (getOrInsertChapter db bookId (baseTitle ++ " - Part " ++ toString seq) u seq).2
        (getOrInsertChapter db bookId (baseTitle ++ " - Part " ++ toString seq) u seq).1
        segs, insert u g, [u]) := by
  rw [surfGo, dif_neg hg, dif_neg hs]
  split
  · rename_i heq
    rw [hf] at heq
    cases heq
  · rename_i doc' heq
    rw [hf] at heq
    injection heq with heq
    subst heq
    rw [ha]
    simp only [if_neg hguard]

/-- A surf step on a CONTENT page whose pagination link points back to
the same URL: persist, then stop. -/
theorem surfGo_content_self (site : Site) (bookId : Nat) (baseTitle : String) (u : Url)
    (seq : Nat) (g s : Finset Url) (db : DB) (doc : PageDoc) (segs : List String)
    (pt : String) (hg : u ∉ g) (hs : u ∉ s) (hf : fetchDoc site u = some doc)
    (ha : analyzePage doc [] = PageResult.content segs (some u) pt)
    (hguard : ¬(5 < seq ∧ surfIsStartPage pt = true)) :
    (surfGo site bookId baseTitle u seq g s db).1 =
      (insertSegmentsDB
        (getOrInsertChapter db bookId (baseTitle ++ " - Part " ++ toString seq) u seq).2
        (getOrInsertChapter db bookId (baseTitle ++ " - Part " ++ toString seq) u seq).1
        segs, insert u g, [u]) := by
  rw [surfGo, dif_neg hg, dif_neg hs]
  split
  · rename_i heq
    rw [hf] at heq
    cases heq
  · rename_i doc' heq
    rw [hf] at heq
    injection heq with heq
    subst heq
    rw [ha]
    simp [if_neg hguard]

/-- A surf step on a CONTENT page with a fresh pagination link: persist,
then continue the loop at the link with both sets extended. -/
theorem surfGo_content_next (site : Site) (bookId : Nat) (baseTitle : String) (u : Url)
    (seq : Nat) (g s : Finset Url) (db : DB) (doc : PageDoc) (segs : List String)
    (n2 : Url) (pt : String) (hg : u ∉ g) (hs : u ∉ s)
    (hf : fetchDoc site u = some doc)
    (ha : analyzePage doc [] = PageResult.content segs (some n2) pt)
    (hguard : ¬(5 < seq ∧ surfIsStartPage pt = true)) (hne : n2 ≠ u) :
    (surfGo site bookId baseTitle u seq g s db).1 =
      ((surfGo site bookId baseTitle n2 (seq + 1) (insert u g) (insert u s)
          (insertSegmentsDB
            (getOrInsertChapter db bookId (baseTitle ++ " - Part " ++ toString seq) u seq).2
            (getOrInsertChapter db bookId (baseTitle ++ " - Part " ++ toString seq) u seq).1
            segs)).1.1,
        (surfGo site bookId baseTitle n2 (seq + 1) (insert u g) (insert u s)
          (insertSegmentsDB
            (getOrInsertChapter db bookId (baseTitle ++ " - Part " ++ toString seq) u seq).2
            (getOrInsertChapter db bookId (baseTitle ++ " - Part " ++ toString seq) u seq).1
            segs)).1.2.1,
        u :: (surfGo site bookId baseTitle n2 (seq + 1) (insert u g) (insert u s)
          (insertSegmentsDB
            (getOrInsertChapter db bookId (baseTitle ++ " - Part " ++ toString seq) u seq).2
            (getOrInsertChapter db bookId (baseTitle ++ " - Part " ++ toString seq) u seq).1
            segs)).1.2.2) := by
  rw [surfGo, dif_neg hg, dif_neg hs]
  split
  · rename_i heq
    rw [hf] at heq
    cases heq
  · rename_i doc' heq
    rw [hf] at heq
    injection heq with heq
    subst heq
    rw [ha]
    simp only [if_neg hguard, if_neg hne]

/-- The surfer's loop invariant: the global set only grows; the trace has
no repeats; every traced URL was new to both sets when reached and ends
up in the final global set. -/
theorem surfGo_inv (site : Site) (bookId : Nat) (baseTitle : String) :
    ∀ (u : Url) (seq : Nat) (g s : Finset Url) (db : DB),
    g ⊆ (surfGo site bookId baseTitle u seq g s db).1.2.1 ∧
      (surfGo site bookId baseTitle u seq g s db).1.2.2.Nodup ∧
      ∀ w ∈ (surfGo site bookId baseTitle u seq g s db).1.2.2,
        w ∉ g ∧ w ∉ s ∧ w ∈ (surfGo site bookId baseTitle u seq g s db).1.2.1 := by
  intro u seq g s db
  induction u, seq, g, s, db using surfGo.induct site bookId baseTitle with
  | case1 u seq g s db hg =>
    rw [surfGo_stop site bookId baseTitle u seq g s db (Or.inl hg)]
    exact ⟨Finset.Subset.refl _, List.nodup_nil, by simp⟩
  | case2 u seq g s db hg hs =>
    rw [surfGo_stop site bookId baseTitle u seq g s db (Or.inr hs)]
    exact ⟨Finset.Subset.refl _, List.nodup_nil, by simp⟩
  | case3 u seq g s db hg hs hf =>
    rw [surfGo_fetch_fail site bookId baseTitle u seq g s db hg hs hf]
    exact ⟨Finset.subset_insert _ _, List.nodup_nil, by simp⟩
  | case4 u seq g s db hg hs doc hf segs nu pt ha hguard =>
    rw [surfGo_content_guard site bookId baseTitle u seq g s db doc segs nu pt
      hg hs hf ha hguard]
    exact ⟨Finset.subset_insert _ _, List.nodup_singleton _,
      fun w hw => by
        simp only [List.mem_singleton] at hw
        subst hw
        exact ⟨hg, hs, Finset.mem_insert_self _ _⟩⟩
  | case5 seq g s db doc segs pt hguard u hg hs hf ha =>
    rw [surfGo_content_self site bookId baseTitle u seq g s db doc segs pt
      hg hs hf ha hguard]
    exact ⟨Finset.subset_insert _ _, List.nodup_singleton _,
      fun w hw => by
        simp only [List.mem_singleton] at hw
        subst hw
        exact ⟨hg, hs, Finset.mem_insert_self _ _⟩⟩
  | case6 u seq g s db hg hs doc hf segs pt hguard title pr db2 n2 hne ha ih1 ih2 =>
    rw [surfGo_content_next site bookId baseTitle u seq g s db doc segs n2 pt
      hg hs hf ha hguard hne]
    obtain ⟨ihg, ihnd, ihmem⟩ := ih2
    refine ⟨?_, ?_, ?_⟩
    · exact (Finset.subset_insert _ _).trans ihg
    · refine List.nodup_cons.mpr ⟨?_, ihnd⟩
      intro hmem
      exact (ihmem u hmem).1 (Finset.mem_insert_self _ _)
    · intro w hw
      rcases List.mem_cons.mp hw with rfl | hw2
      · exact ⟨hg, hs, ihg (Finset.mem_insert_self _ _)⟩
      · obtain ⟨h1, h2, h3⟩ := ihmem w hw2
        exact ⟨fun hm => h1 (Finset.mem_insert_of_mem hm),
          fun hm => h2 (Finset.mem_insert_of_mem hm), h3⟩
  | case7 u seq g s db hg hs doc hf segs pt hguard ha =>
    rw [surfGo_content_none site bookId baseTitle u seq g s db doc segs pt
      hg hs hf ha hguard]
    exact ⟨Finset.subset_insert _ _, List.nodup_singleton _,
      fun w hw => by
        simp only [List.mem_singleton] at hw
        subst hw
        exact ⟨hg, hs, Finset.mem_insert_self _ _⟩⟩
  | case8 u seq g s db hg hs doc hf links ha =>
    rw [surfGo_not_content site bookId baseTitle u seq g s db doc hg hs hf
      (Or.inl ⟨links, ha⟩)]
    exact ⟨Finset.subset_insert _ _, List.nodup_singleton _,
      fun w hw => by
        simp only [List.mem_singleton] at hw
        subst hw
        exact ⟨hg, hs, Finset.mem_insert_self _ _⟩⟩
  | case9 u seq g s db hg hs doc hf ha =>
    rw [surfGo_not_content site bookId baseTitle u seq g s db doc hg hs hf (Or.inr ha)]
    exact ⟨Finset.subset_insert _ _, List.nodup_singleton _,
      fun w hw => by
        simp only [List.mem_singleton] at hw
        subst hw
        exact ⟨hg, hs, Finset.mem_insert_self _ _⟩⟩

/-- A surf step that passes both cycle guards and fetches successfully
classifies its URL first: the trace starts with it. -/
theorem surfGo_trace_head (site : Site) (bookId : Nat) (baseTitle : String) (u : Url)
    (seq : Nat) (g s : Finset Url) (db : DB) (doc : PageDoc)
    (hg : u ∉ g) (hs : u ∉ s) (hf : fetchDoc site u = some doc) :
    ∃ t, (surfGo site bookId baseTitle u seq g s db).1.2.2 = u :: t := by
  cases ha : analyzePage doc [] with
  | content segs nu pt =>
    by_cases hguard : 5 < seq ∧ surfIsStartPage pt = true
    · exact ⟨[], by
        rw [surfGo_content_guard site bookId baseTitle u seq g s db doc segs nu pt
          hg hs hf ha hguard]⟩
    · cases nu with
      | none =>
        exact ⟨[], by
          rw [surfGo_content_none site bookId baseTitle u seq g s db doc segs pt
            hg hs hf ha hguard]⟩
      | some n2 =>
        by_cases hne : n2 = u
        · subst hne
          exact ⟨[], by
            rw [surfGo_content_self site bookId baseTitle n2 seq g s db doc segs pt
              hg hs hf ha hguard]⟩
        · exact ⟨_, by
            rw [surfGo_content_next site bookId baseTitle u seq g s db doc segs n2 pt
              hg hs hf ha hguard hne]⟩
  | index links =>
    exact ⟨[], by
      rw [surfGo_not_content site bookId baseTitle u seq g s db doc hg hs hf
        (Or.inl ⟨links, ha⟩)]⟩
  | empty =>
    exact ⟨[], by
      rw [surfGo_not_content site bookId baseTitle u seq g s db doc hg hs hf (Or.inr ha)]⟩

/-- C3. At each surfer step, a current URL already in the book-global set
or the run-local session set stops the surf at once — store and global
set unchanged, nothing classified or persisted — and over any whole run
the surfer never processes the same URL twice: its trace has no repeats,
and every traced URL was in neither set beforehand. Termination is by
construction: `surfGo` is a total function (well-founded on the unvisited
site URLs), so a pagination chain that repeats a visited URL halts at the
step that meets the repeat. -/
theorem surfer_cycle_guard (site : Site) (bookId : Nat) (baseTitle : String)
    (u : Url) (seq : Nat) (g s : Finset Url) (db : DB) :
    ((u ∈ g ∨ u ∈ s) →
      (surfGo site bookId baseTitle u seq g s db).1 = (db, g, [])) ∧
    (surfGo site bookId baseTitle u seq g s db).1.2.2.Nodup ∧
    (∀ w ∈ (surfGo site bookId baseTitle u seq g s db).1.2.2, w ∉ g ∧ w ∉ s) :=
  ⟨surfGo_stop site bookId baseTitle u seq g s db,
    (surfGo_inv site bookId baseTitle u seq g s db).2.1,
    fun w hw =>
      ⟨((surfGo_inv site bookId baseTitle u seq g s db).2.2 w hw).1,
        ((surfGo_inv site bookId baseTitle u seq g s db).2.2 w hw).2.1⟩⟩

/-- C3, witness: a surf started on an already-visited URL returns the
store untouched with an empty trace. -/
theorem surfer_cycle_guard_witness :
    (surfGo siteOnePage 1 "B" "a" 1 (insert "a" ∅) ∅ DB.empty).1 =
      (DB.empty, insert "a" ∅, []) :=
  (surfer_cycle_guard siteOnePage 1 "B" "a" 1 (insert "a" ∅) ∅ DB.empty).1
    (Or.inl (by simp))

/-- A chapter row survives `getOrInsertChapter`. -/
theorem getOrInsertChapter_chapters_mono (db : DB) (bk : Nat) (t u : String)
    (s : Nat) (r : ChapterRow) (h : r ∈ db.chapters) :
    r ∈ (getOrInsertChapter db bk t u s).2.chapters := by
  unfold getOrInsertChapter
  cases db.chapters.find? (fun r2 => r2.original_link == u) with
  | some r2 => exact h
  | none => exact List.mem_append_left _ h

/-- `getOrInsertChapter` on an absent key puts the new row in the table. -/
theorem getOrInsertChapter_mem (db : DB) (bk : Nat) (t u : String) (s : Nat)
    (h : ∀ r ∈ db.chapters, r.original_link ≠ u) :
    (⟨db.nextId, bk, t, s, u⟩ : ChapterRow) ∈ (getOrInsertChapter db bk t u s).2.chapters := by
  rw [getOrInsertChapter_missing db bk t u s h]
  exact List.mem_append_right _ (List.mem_singleton.mpr rfl)

/-- Chapter rows survive a whole surf run (the store is append-only). -/
theorem surfGo_chapters_mono (site : Site) (bookId : Nat) (baseTitle : String) :
    ∀ (u : Url) (seq : Nat) (g s : Finset Url) (db : DB), ∀ r ∈ db.chapters,
      r ∈ (surfGo site bookId baseTitle u seq g s db).1.1.chapters := by
  intro u seq g s db
  induction u, seq, g, s, db using surfGo.induct site bookId baseTitle with
  | case1 u seq g s db hg =>
    rw [surfGo_stop site bookId baseTitle u seq g s db (Or.inl hg)]
    exact fun r h => h
  | case2 u seq g s db hg hs =>
    rw [surfGo_stop site bookId baseTitle u seq g s db (Or.inr hs)]
    exact fun r h => h
  | case3 u seq g s db hg hs hf =>
    rw [surfGo_fetch_fail site bookId baseTitle u seq g s db hg hs hf]
    exact fun r h => h
  | case4 u seq g s db hg hs doc hf segs nu pt ha hguard =>
    rw [surfGo_content_guard site bookId baseTitle u seq g s db doc segs nu pt
      hg hs hf ha hguard]
    exact fun r h => h
  | case5 seq g s db doc segs pt hguard u hg hs hf ha =>
    rw [surfGo_content_self site bookId baseTitle u seq g s db doc segs pt
      hg hs hf ha hguard]
    exact fun r h => getOrInsertChapter_chapters_mono db bookId _ u seq r h
  | case6 u seq g s db hg hs doc hf segs pt hguard title pr db2 n2 hne ha ih1 ih2 =>
    rw [surfGo_content_next site bookId baseTitle u seq g s db doc segs n2 pt
      hg hs hf ha hguard hne]
    intro r h
    exact ih2 r (getOrInsertChapter_chapters_mono db bookId _ u seq r h)
  | case7 u seq g s db hg hs doc hf segs pt hguard ha =>
    rw [surfGo_content_none site bookId baseTitle u seq g s db doc segs pt
      hg hs hf ha hguard]
    exact fun r h => getOrInsertChapter_chapters_mono db bookId _ u seq r h
  | case8 u seq g s db hg hs doc hf links ha =>
    rw [surfGo_not_content site bookId baseTitle u seq g s db doc hg hs hf
      (Or.inl ⟨links, ha⟩)]
    exact fun r h => h
  | case9 u seq g s db hg hs doc hf ha =>
    rw [surfGo_not_content site bookId baseTitle u seq g s db doc hg hs hf (Or.inr ha)]
    exact fun r h => h

/-- C9. On a CONTENT page, when the running sequence exceeds 5 and the
page title matches a front-matter marker, the surfer stops without
persisting a chapter for that page (store unchanged); a CONTENT page
failing that guard has a chapter persisted for it with title
`baseTitle - Part sequence`, the running sequence number and its URL. -/
theorem surfer_reset_guard (site : Site) (bookId : Nat) (baseTitle : String)
    (u : Url) (seq : Nat) (g s : Finset Url) (db : DB) (doc : PageDoc)
    (segs : List String) (nu : Option Url) (pt : String)
    (hg : u ∉ g) (hs : u ∉ s) (hf : fetchDoc site u = some doc)
    (ha : analyzePage doc [] = PageResult.content segs nu pt) :
    ((5 < seq ∧ surfIsStartPage pt = true) →
      (surfGo site bookId baseTitle u seq g s db).1 = (db, insert u g, [u])) ∧
    (¬(5 < seq ∧ surfIsStartPage pt = true) →
      (∀ r ∈ db.chapters, r.original_link ≠ u) →
      ∃ r ∈ (surfGo site bookId baseTitle u seq g s db).1.1.chapters,
        r.book_id = bookId ∧ r.title = baseTitle ++ " - Part " ++ toString seq ∧
          r.sequence_number = seq ∧ r.original_link = u) := by
  constructor
  · intro hguard
    exact surfGo_content_guard site bookId baseTitle u seq g s db doc segs nu pt
      hg hs hf ha hguard
  · intro hguard hmiss
    have hrow := getOrInsertChapter_mem db bookId
      (baseTitle ++ " - Part " ++ toString seq) u seq hmiss
    cases nu with
    | none =>
      rw [surfGo_content_none site bookId baseTitle u seq g s db doc segs pt
        hg hs hf ha hguard]
      exact ⟨_, hrow, rfl, rfl, rfl, rfl⟩
    | some n2 =>
      by_cases hne : n2 = u
      · subst hne
        rw [surfGo_content_self site bookId baseTitle n2 seq g s db doc segs pt
          hg hs hf ha hguard]
        exact ⟨_, hrow, rfl, rfl, rfl, rfl⟩
      · rw [surfGo_content_next site bookId baseTitle u seq g s db doc segs n2 pt
          hg hs hf ha hguard hne]
        exact ⟨_, surfGo_chapters_mono site bookId baseTitle n2 (seq + 1) _ _ _ _ hrow,
          rfl, rfl, rfl, rfl⟩

/-- C9, witness: at sequence 6 on a page titled `introduction`, the guard
fires and the surfer stops with the store untouched. -/
theorem surfer_reset_guard_witness :
    (surfGo siteIntroPage 1 "B" "a" 6 ∅ ∅ DB.empty).1 =
      (DB.empty, insert "a" ∅, ["a"]) :=
  (surfer_reset_guard siteIntroPage 1 "B" "a" 6 ∅ ∅ DB.empty introDoc
    [hebTextA] none "introduction" (Finset.not_mem_empty _) (Finset.not_mem_empty _)
    (by decide) (by decide)).1 ⟨by omega, by decide⟩

/-! ## The Recursive Driller's traversal (C2) -/

/-- A driller node whose URL is already in the shared visited set is
skipped entirely: the traversal just continues with the remaining work. -/
theorem drillStack_visited (site : Site) (bookId : Nat) (sidebar : List Url)
    (url : Url) (crumb : List String) (rest : List (Url × List String))
    (visited : Finset Url) (db : DB) (hv : url ∈ visited) :
    drillStack site bookId sidebar ((url, crumb) :: rest) visited db =
      drillStack site bookId sidebar rest visited db := by
  rw [drillStack.eq_2, dif_pos hv]

/-- A driller node whose fetch fails ends its branch without marking the
URL visited. -/
theorem drillStack_fetch_fail (site : Site) (bookId : Nat) (sidebar : List Url)
    (url : Url) (crumb : List String) (rest : List (Url × List String))
    (visited : Finset Url) (db : DB) (hv : url ∉ visited)
    (hf : fetchDoc site url = none) :
    drillStack site bookId sidebar ((url, crumb) :: rest) visited db =
      drillStack site bookId sidebar rest visited db := by
  rw [drillStack.eq_2, dif_neg hv]
  split
  · rfl
  · rename_i doc heq
    rw [hf] at heq
    cases heq

/-- A driller node that classifies CONTENT hands off to the surfer (shared
visited set, fresh session, breadcrumb joined minus the book root,
sequence 1) and does not recurse further on this branch. -/
theorem drillStack_content (site : Site) (bookId : Nat) (sidebar : List Url)
    (url : Url) (crumb : List String) (rest : List (Url × List String))
    (visited : Finset Url) (db : DB) (doc : PageDoc) (segs : List String)
    (nu : Option Url) (pt : String) (hv : url ∉ visited)
    (hf : fetchDoc site url = some doc)
    (ha : analyzePage doc sidebar = PageResult.content segs nu pt) :
    drillStack site bookId sidebar ((url, crumb) :: rest) visited db =
      ((drillStack site bookId sidebar rest
          (surfGo site bookId (String.intercalate " - " (crumb.drop 1))
            url 1 visited ∅ db).1.2.1
          (surfGo site bookId (String.intercalate " - " (crumb.drop 1))
            url 1 visited ∅ db).1.1).1,
        (drillStack site bookId sidebar rest
          (surfGo site bookId (String.intercalate " - " (crumb.drop 1))
            url 1 visited ∅ db).1.2.1
          (surfGo site bookId (String.intercalate " - " (crumb.drop 1))
            url 1 visited ∅ db).1.1).2.1,
        url :: ((surfGo site bookId (String.intercalate " - " (crumb.drop 1))
            url 1 visited ∅ db).1.2.2 ++
          (drillStack site bookId sidebar rest
            (surfGo site bookId (String.intercalate " - " (crumb.drop 1))
              url 1 visited ∅ db).1.2.1
            (surfGo site bookId (String.intercalate " - " (crumb.drop 1))
              url 1 visited ∅ db).1.1).2.2)) := by
  rw [drillStack.eq_2, dif_neg hv]
  split
  · rename_i heq
    rw [hf] at heq
    cases heq
  · rename_i doc' heq
    rw [hf] at heq
    injection heq with heq
    subst heq
    rw [ha]

/-- A driller node that classifies INDEX marks the URL visited and
recurses depth-first into the sub-links with extended breadcrumbs. -/
theorem drillStack_index (site : Site) (bookId : Nat) (sidebar : List Url)
    (url : Url) (crumb : List String) (rest : List (Url × List String))
    (visited : Finset Url) (db : DB) (doc : PageDoc) (links : List Anchor)
    (hv : url ∉ visited) (hf : fetchDoc site url = some doc)
    (ha : analyzePage doc sidebar = PageResult.index links) :
    drillStack site bookId sidebar ((url, crumb) :: rest) visited db =
      ((drillStack site bookId sidebar
          ((links.map fun l => (l.href, crumb ++ [l.text])) ++ rest)
          (insert url visited) db).1,
        (drillStack site bookId sidebar
          ((links.map fun l => (l.href, crumb ++ [l.text])) ++ rest)
          (insert url visited) db).2.1,
        url :: (drillStack site bookId sidebar
          ((links.map fun l => (l.href, crumb ++ [l.text])) ++ rest)
          (insert url visited) db).2.2) := by
  rw [drillStack.eq_2, dif_neg hv]
  split
  · rename_i heq
    rw [hf] at heq
    cases heq
  · rename_i doc' heq
    rw [hf] at heq
    injection heq with heq
    subst heq
    rw [ha]

/-- A driller node that classifies EMPTY marks the URL visited and moves
on. -/
theorem drillStack_empty (site : Site) (bookId : Nat) (sidebar : List Url)
    (url : Url) (crumb : List String) (rest : List (Url × List String))
    (visited : Finset Url) (db : DB) (doc : PageDoc)
    (hv : url ∉ visited) (hf : fetchDoc site url = some doc)
    (ha : analyzePage doc sidebar = PageResult.empty) :
    drillStack site bookId sidebar ((url, crumb) :: rest) visited db =
      ((drillStack site bookId sidebar rest (insert url visited) db).1,
        (drillStack site bookId sidebar rest (insert url visited) db).2.1,
        url :: (drillStack site bookId sidebar rest (insert url visited) db).2.2) := by
  rw [drillStack.eq_2, dif_neg hv]
  split
  · rename_i heq
    rw [hf] at heq
    cases heq
  · rename_i doc' heq
    rw [hf] at heq
    injection heq with heq
    subst heq
    rw [ha]

/-- Counting helper for a content handoff node: the node's URL heads the
surfer trace, the surfer trace has no repeats and is disjoint from the
continuation's trace, and the node's URL is absent from the
continuation's trace, so every URL occurs at most twice overall. -/
theorem count_handoff_le_two (url w : Url) (strace ktrace : List Url)
    (hnd : strace.Nodup) (hhead : ∃ t, strace = url :: t)
    (hdisj : ∀ x ∈ strace, x ∉ ktrace) (hurlk : url ∉ ktrace)
    (hck : ktrace.count w ≤ 2) :
    (url :: (strace ++ ktrace)).count w ≤ 2 := by
  obtain ⟨t, rfl⟩ := hhead
  by_cases hw : w = url
  · subst hw
    rw [List.count_cons_self, List.count_append, List.count_cons_self,
      List.count_eq_zero_of_not_mem (List.nodup_cons.mp hnd).1,
      List.count_eq_zero_of_not_mem hurlk]
  · rw [List.count_cons_of_ne hw, List.count_append]
    have hs1 : (url :: t).count w ≤ 1 := List.nodup_iff_count_le_one.mp hnd w
    by_cases hpos : 0 < (url :: t).count w
    · have hk0 : ktrace.count w = 0 :=
        List.count_eq_zero_of_not_mem (hdisj w (List.count_pos_iff.mp hpos))
      omega
    · omega

/-- Counting helper for an ordinary node: its URL is absent from the
continuation's trace. -/
theorem count_mark_le_two (url w : Url) (ktrace : List Url)
    (hurlk : url ∉ ktrace) (hck : ktrace.count w ≤ 2) :
    (url :: ktrace).count w ≤ 2 := by
  by_cases hw : w = url
  · subst hw
    rw [List.count_cons_self, List.count_eq_zero_of_not_mem hurlk]
    omega
  · rw [List.count_cons_of_ne hw]
    exact hck

/-- The driller's traversal invariant: the shared visited set only grows,
every fetched URL was unvisited at the traversal's start and is visited
at its end, and no URL is fetched and classified more than twice. -/
theorem drillStack_inv (site : Site) (bookId : Nat) (sidebar : List Url) :
    ∀ (work : List (Url × List String)) (visited : Finset Url) (db : DB),
    visited ⊆ (drillStack site bookId sidebar work visited db).2.1 ∧
      (∀ w ∈ (drillStack site bookId sidebar work visited db).2.2,
        w ∉ visited ∧ w ∈ (drillStack site bookId sidebar work visited db).2.1) ∧
      ∀ w, ((drillStack site bookId sidebar work visited db).2.2).count w ≤ 2 := by
  intro work visited db
  induction work, visited, db using drillStack.induct site bookId sidebar with
  | case1 visited db =>
    rw [drillStack.eq_1]
    exact ⟨Finset.Subset.refl _, by simp, by simp⟩
  | case2 visited db url crumb rest hv ih =>
    rw [drillStack_visited site bookId sidebar url crumb rest visited db hv]
    exact ih
  | case3 visited db url crumb rest hv hf ih =>
    rw [drillStack_fetch_fail site bookId sidebar url crumb rest visited db hv hf]
    exact ih
  | case4 visited db url crumb rest hv doc hf segs nu pt ha r ih =>
    rw [drillStack_content site bookId sidebar url crumb rest visited db doc segs nu pt
      hv hf ha]
    obtain ⟨ihsub, ihmem, ihcount⟩ := ih
    have hm : visited ⊆
        (surfGo site bookId (String.intercalate " - " (crumb.drop 1))
          url 1 visited ∅ db).1.2.1 :=
      (surfGo site bookId (String.intercalate " - " (crumb.drop 1))
        url 1 visited ∅ db).2.1
    have hu : url ∈
        (surfGo site bookId (String.intercalate " - " (crumb.drop 1))
          url 1 visited ∅ db).1.2.1 :=
      (surfGo site bookId (String.intercalate " - " (crumb.drop 1))
        url 1 visited ∅ db).2.2 hv (Finset.not_mem_empty url)
    obtain ⟨-, hnd, htr⟩ := surfGo_inv site bookId
      (String.intercalate " - " (crumb.drop 1)) url 1 visited ∅ db
    have hhead := surfGo_trace_head site bookId
      (String.intercalate " - " (crumb.drop 1)) url 1 visited ∅ db doc hv
      (Finset.not_mem_empty url) hf
    refine ⟨hm.trans ihsub, ?_, ?_⟩
    · intro w hw
      rcases List.mem_cons.mp hw with rfl | hw2
      · exact ⟨hv, ihsub hu⟩
      · rcases List.mem_append.mp hw2 with hw3 | hw3
        · obtain ⟨h1, -, h3⟩ := htr w hw3
          exact ⟨h1, ihsub h3⟩
        · obtain ⟨h1, h2⟩ := ihmem w hw3
          exact ⟨fun hmem => h1 (hm hmem), h2⟩
    · intro w
      refine count_handoff_le_two url w _ _ hnd hhead ?_ ?_ (ihcount w)
      · intro x hx hxk
        exact (ihmem x hxk).1 (htr x hx).2.2
      · intro hk
        exact (ihmem url hk).1 hu
  | case5 visited db url crumb rest hv doc hf links ha children ih =>
    rw [drillStack_index site bookId sidebar url crumb rest visited db doc links hv hf ha]
    obtain ⟨ihsub, ihmem, ihcount⟩ := ih
    refine ⟨(Finset.subset_insert _ _).trans ihsub, ?_, ?_⟩
    · intro w hw
      rcases List.mem_cons.mp hw with rfl | hw2
      · exact ⟨hv, ihsub (Finset.mem_insert_self _ _)⟩
      · obtain ⟨h1, h2⟩ := ihmem w hw2
        exact ⟨fun hmem => h1 (Finset.mem_insert_of_mem hmem), h2⟩
    · intro w
      refine count_mark_le_two url w _ ?_ (ihcount w)
      intro hk
      exact (ihmem url hk).1 (Finset.mem_insert_self _ _)
  | case6 visited db url crumb rest hv doc hf ha ih =>
    rw [drillStack_empty site bookId sidebar url crumb rest visited db doc hv hf ha]
    obtain ⟨ihsub, ihmem, ihcount⟩ := ih
    refine ⟨(Finset.subset_insert _ _).trans ihsub, ?_, ?_⟩
    · intro w hw
      rcases List.mem_cons.mp hw with rfl | hw2
      · exact ⟨hv, ihsub (Finset.mem_insert_self _ _)⟩
      · obtain ⟨h1, h2⟩ := ihmem w hw2
        exact ⟨fun hmem => h1 (Finset.mem_insert_of_mem hmem), h2⟩
    · intro w
      refine count_mark_le_two url w _ ?_ (ihcount w)
      intro hk
      exact (ihmem url hk).1 (Finset.mem_insert_self _ _)

/-- C2 (amended). The Driller consults the shared per-book visited set on
entry to every node — a node whose URL is already visited is skipped
outright — and for every link graph (cycles included) each URL is
fetched and classified at most TWICE per book traversal: at most once by
the Driller itself and once more by the Surfer re-fetching the handoff
page of a content branch. Termination holds for every input by
construction: `drillStack` is a total function, well-founded on the
unvisited site URLs paired with the work list. -/
theorem driller_visited_set_safety (site : Site) (bookId : Nat) (sidebar : List Url)
    (work : List (Url × List String)) (visited : Finset Url) (db : DB) :
    (∀ (url : Url) (crumb : List String) (rest : List (Url × List String)),
      url ∈ visited →
        drillStack site bookId sidebar ((url, crumb) :: rest) visited db =
          drillStack site bookId sidebar rest visited db) ∧
    ∀ w, ((drillStack site bookId sidebar work visited db).2.2).count w ≤ 2 :=
  ⟨fun url crumb rest hv => drillStack_visited site bookId sidebar url crumb rest
      visited db hv,
    (drillStack_inv site bookId sidebar work visited db).2.2⟩

/-- C2, witness: a work item whose URL is already visited is dropped
without any fetch, and on the one-page site no URL is traced more than
twice. -/
theorem driller_visited_set_safety_witness :
    (drillStack siteOnePage 1 [] [("a", ["Book"])] (insert "a" ∅) DB.empty =
      drillStack siteOnePage 1 [] [] (insert "a" ∅) DB.empty) ∧
    ∀ w, ((drillStack siteOnePage 1 [] [("a", ["Book"])] ∅ DB.empty).2.2).count w ≤ 2 :=
  ⟨(driller_visited_set_safety siteOnePage 1 [] [] (insert "a" ∅) DB.empty).1
      "a" ["Book"] [] (by simp),
    (driller_visited_set_safety siteOnePage 1 [] [("a", ["Book"])] ∅ DB.empty).2⟩

/-- C2, counterexample to the claim as stated: on a site whose book root
is itself a content page, the Driller fetches and classifies the URL
once, then hands off to the Surfer, which — finding the URL in neither
visited set, since the Driller marks a content URL only through the
Surfer — fetches and classifies the same URL a second time: the combined
trace holds the URL twice, not at most once. -/
theorem driller_handoff_double_fetch :
    ((drillRecursive siteOnePage 1 [] "a" ["Book"] ∅ DB.empty).2.2).count "a" = 2 := by
  unfold drillRecursive
  rw [drillStack_content siteOnePage 1 [] "a" ["Book"] [] ∅ DB.empty contentDoc
    [hebTextA] none "t" (Finset.not_mem_empty "a") (by decide) (by decide)]
  rw [drillStack.eq_1]
  rw [surfGo_content_none siteOnePage 1 (String.intercalate " - " (["Book"].drop 1))
    "a" 1 ∅ ∅ DB.empty contentDoc [hebTextA] "t" (Finset.not_mem_empty "a")
    (Finset.not_mem_empty "a") (by decide) (by decide)
    (fun h => absurd h.1 (by decide))]
  decide

/-! ## The depth-capped crawler's skip conditions and depth bound (C8) -/

/-- A crawler node whose URL is already visited is skipped outright. -/
theorem crawlStack_visited (site : Site1) (bookId : Nat) (url : Url)
    (crumb : List String) (depth : Nat) (rest : List (Url × List String × Nat))
    (visited : Finset Url) (db : DB) (hv : url ∈ visited) :
    crawlStack site bookId ((url, crumb, depth) :: rest) visited db =
      crawlStack site bookId rest visited db := by
  rw [crawlStack.eq_2, dif_pos hv]

/-- A crawler node past the depth cap is marked visited but skipped:
no fetch, no classification, no recursion. -/
theorem crawlStack_depth (site : Site1) (bookId : Nat) (url : Url)
    (crumb : List String) (depth : Nat) (rest : List (Url × List String × Nat))
    (visited : Finset Url) (db : DB) (hv : url ∉ visited) (hd : 10 < depth) :
    crawlStack site bookId ((url, crumb, depth) :: rest) visited db =
      crawlStack site bookId rest (insert url visited) db := by
  rw [crawlStack.eq_2, dif_neg hv, if_pos hd]

/-- A crawler node whose fetch or analysis fails ends its branch (the URL
stays marked). -/
theorem crawlStack_fetch_fail (site : Site1) (bookId : Nat) (url : Url)
    (crumb : List String) (depth : Nat) (rest : List (Url × List String × Nat))
    (visited : Finset Url) (db : DB) (hv : url ∉ visited) (hd : ¬10 < depth)
    (hf : fetch1 site url = none) :
    crawlStack site bookId ((url, crumb, depth) :: rest) visited db =
      crawlStack site bookId rest (insert url visited) db := by
  rw [crawlStack.eq_2, dif_neg hv, if_neg hd]
  split
  · rfl
  · rename_i text heq
    rw [hf] at heq
    cases heq
  · rename_i links heq
    rw [hf] at heq
    cases heq
  · rename_i heq
    rw [hf] at heq
    cases heq

/-- A crawler node that classifies CONTENT persists a chapter titled with
the joined breadcrumb at sequence `depth * 100`, with its split segments,
and ends the branch. -/
theorem crawlStack_content (site : Site1) (bookId : Nat) (url : Url)
    (crumb : List String) (depth : Nat) (rest : List (Url × List String × Nat))
    (visited : Finset Url) (db : DB) (text : String) (hv : url ∉ visited)
    (hd : ¬10 < depth) (hf : fetch1 site url = some (PageAnalysis1.content text)) :
    crawlStack site bookId ((url, crumb, depth) :: rest) visited db =
      ((crawlStack site bookId rest (insert url visited)
          (insertSegmentsText
            (getOrInsertChapter db bookId (String.intercalate " - " (crumb.drop 1))
              url (depth * 100)).2
            (getOrInsertChapter db bookId (String.intercalate " - " (crumb.drop 1))
              url (depth * 100)).1 text)).1,
        (crawlStack site bookId rest (insert url visited)
          (insertSegmentsText
            (getOrInsertChapter db bookId (String.intercalate " - " (crumb.drop 1))
              url (depth * 100)).2
            (getOrInsertChapter db bookId (String.intercalate " - " (crumb.drop 1))
              url (depth * 100)).1 text)).2.1,
        (url, depth) :: (crawlStack site bookId rest (insert url visited)
          (insertSegmentsText
            (getOrInsertChapter db bookId (String.intercalate " - " (crumb.drop 1))
              url (depth * 100)).2
            (getOrInsertChapter db bookId (String.intercalate " - " (crumb.drop 1))
              url (depth * 100)).1 text)).2.2) := by
  rw [crawlStack.eq_2, dif_neg hv, if_neg hd]
  split
  · rename_i heq
    rw [hf] at heq
    cases heq
  · rename_i text' heq
    rw [hf] at heq
    injection heq with heq
    injection heq with heq
    subst heq
    rfl
  · rename_i links heq
    rw [hf] at heq
    injection heq with heq
    cases heq
  · rename_i heq
    rw [hf] at heq
    injection heq with heq
    cases heq

/-- A crawler node that classifies INDEX recurses into the sub-links not
yet visited, one level deeper. -/
theorem crawlStack_index (site : Site1) (bookId : Nat) (url : Url)
    (crumb : List String) (depth : Nat) (rest : List (Url × List String × Nat))
    (visited : Finset Url) (db : DB) (links : List Anchor) (hv : url ∉ visited)
    (hd : ¬10 < depth) (hf : fetch1 site url = some (PageAnalysis1.index links)) :
    crawlStack site bookId ((url, crumb, depth) :: rest) visited db =
      ((crawlStack site bookId
          (((links.filter fun l => !decide (l.href ∈ insert url visited)).map
            fun l => (l.href, crumb ++ [l.text], depth + 1)) ++ rest)
          (insert url visited) db).1,
        (crawlStack site bookId
          (((links.filter fun l => !decide (l.href ∈ insert url visited)).map
            fun l => (l.href, crumb ++ [l.text], depth + 1)) ++ rest)
          (insert url visited) db).2.1,
        (url, depth) :: (crawlStack site bookId
          (((links.filter fun l => !decide (l.href ∈ insert url visited)).map
            fun l => (l.href, crumb ++ [l.text], depth + 1)) ++ rest)
          (insert url visited) db).2.2) := by
  rw [crawlStack.eq_2, dif_neg hv, if_neg hd]
  split
  · rename_i heq
    rw [hf] at heq
    cases heq
  · rename_i text' heq
    rw [hf] at heq
    injection heq with heq
    cases heq
  · rename_i links' heq
    rw [hf] at heq
    injection heq with heq
    injection heq with heq
    subst heq
    rfl
  · rename_i heq
    rw [hf] at heq
    injection heq with heq
    cases heq

/-- A crawler node that classifies EMPTY is a no-op beyond the mark. -/
theorem crawlStack_empty (site : Site1) (bookId : Nat) (url : Url)
    (crumb : List String) (depth : Nat) (rest : List (Url × List String × Nat))
    (visited : Finset Url) (db : DB) (hv : url ∉ visited)
    (hd : ¬10 < depth) (hf : fetch1 site url = some PageAnalysis1.empty) :
    crawlStack site bookId ((url, crumb, depth) :: rest) visited db =
      ((crawlStack site bookId rest (insert url visited) db).1,
        (crawlStack site bookId rest (insert url visited) db).2.1,
        (url, depth) :: (crawlStack site bookId rest (insert url visited) db).2.2) := by
  rw [crawlStack.eq_2, dif_neg hv, if_neg hd]
  split
  · rename_i heq
    rw [hf] at heq
    cases heq
  · rename_i text' heq
    rw [hf] at heq
    injection heq with heq
    cases heq
  · rename_i links' heq
    rw [hf] at heq
    injection heq with heq
    cases heq
  · rfl

/-- C8. The depth-capped crawler skips a node when its URL is already
visited, and skips (after marking) a node whose depth exceeds the cap of
10; consequently every fetched-and-classified node of any traversal —
over any link graph, cyclic or malformed — sits at depth at most 10, and
the traversal terminates (the function is total by well-founded recursion
on the unvisited site URLs paired with the work list). -/
theorem crawler_depth_cap (site : Site1) (bookId : Nat)
    (work : List (Url × List String × Nat)) (visited : Finset Url) (db : DB) :
    (∀ (url : Url) (crumb : List String) (depth : Nat)
      (rest : List (Url × List String × Nat)), url ∈ visited →
        crawlStack site bookId ((url, crumb, depth) :: rest) visited db =
          crawlStack site bookId rest visited db) ∧
    (∀ (url : Url) (crumb : List String) (depth : Nat)
      (rest : List (Url × List String × Nat)), url ∉ visited → 10 < depth →
        crawlStack site bookId ((url, crumb, depth) :: rest) visited db =
          crawlStack site bookId rest (insert url visited) db) ∧
    ∀ p ∈ (crawlStack site bookId work visited db).2.2, p.2 ≤ 10 := by
  refine ⟨fun url crumb depth rest hv =>
      crawlStack_visited site bookId url crumb depth rest visited db hv,
    fun url crumb depth rest hv hd =>
      crawlStack_depth site bookId url crumb depth rest visited db hv hd, ?_⟩
  induction work, visited, db using crawlStack.induct site bookId with
  | case1 visited db =>
    rw [crawlStack.eq_1]
    simp
  | case2 visited db url crumb depth rest hv ih =>
    rw [crawlStack_visited site bookId url crumb depth rest visited db hv]
    exact ih
  | case3 visited db url crumb depth rest hv hd ih =>
    rw [crawlStack_depth site bookId url crumb depth rest visited db hv hd]
    exact ih
  | case4 visited db url crumb depth rest hv hd hf ih =>
    rw [crawlStack_fetch_fail site bookId url crumb depth rest visited db hv hd hf]
    exact ih
  | case5 visited db url crumb depth rest hv hd text hf title pr db2 ih =>
    rw [crawlStack_content site bookId url crumb depth rest visited db text hv hd hf]
    intro p hp
    rcases List.mem_cons.mp hp with rfl | hp2
    · exact Nat.le_of_not_lt hd
    · exact ih p hp2
  | case6 visited db url crumb depth rest hv hd links hf uniqueLinks children ih =>
    rw [crawlStack_index site bookId url crumb depth rest visited db links hv hd hf]
    intro p hp
    rcases List.mem_cons.mp hp with rfl | hp2
    · exact Nat.le_of_not_lt hd
    · exact ih p hp2
  | case7 visited db url crumb depth rest hv hd hf ih =>
    rw [crawlStack_empty site bookId url crumb depth rest visited db hv hd hf]
    intro p hp
    rcases List.mem_cons.mp hp with rfl | hp2
    · exact Nat.le_of_not_lt hd
    · exact ih p hp2

/-- C8, witness: on the self-looping site, a visited node is skipped, a
node at depth 11 is skipped with its URL marked, and every classified
node of the traversal seeded at depth 1 sits within the cap. -/
theorem crawler_depth_cap_witness :
    (crawlStack site1Loop 1 [("a", ["B"], 3)] (insert "a" ∅) DB.empty =
      crawlStack site1Loop 1 [] (insert "a" ∅) DB.empty) ∧
    (crawlStack site1Loop 1 [("b", ["B"], 11)] ∅ DB.empty =
      crawlStack site1Loop 1 [] (insert "b" ∅) DB.empty) ∧
    ∀ p ∈ (crawlRecursive site1Loop 1 "a" ["B"] ∅ 1 DB.empty).2.2, p.2 ≤ 10 :=
  ⟨(crawler_depth_cap site1Loop 1 [] (insert "a" ∅) DB.empty).1 "a" ["B"] 3 []
      (by simp),
    (crawler_depth_cap site1Loop 1 [] ∅ DB.empty).2.1 "b" ["B"] 11 []
      (Finset.not_mem_empty "b") (by omega),
    (crawler_depth_cap site1Loop 1 [("a", ["B"], 1)] ∅ DB.empty).2.2⟩

end ChassidusAI
